import Mathlib

/-!
# A verification model of the pg_idx_advisor candidate engine

This file gives a shallow embedding, in Lean 4, of the candidate
generation, composition, deduplication, filtering, inheritance-expansion
and usage-attribution engine of the `pg_idx_advisor` PostgreSQL
extension (`src/idx_adviser.c`, `src/idx_adviser.h`, `src/utils.c`),
together with theorems settling the specification claims about it.

Modelling conventions, used throughout:

* PostgreSQL `Oid`, `AttrNumber`, `Index` and friends are modelled as
  `Nat` or `Int`; machine-width wrap-around is modelled explicitly where
  it matters (the `int8` benefit-size accumulator, see `int8wrap`), and
  ignored where every value in range is tiny (`Oid` subtraction inside
  `compare_candidates`, where genuine OIDs are far below 2^31).
* C strings (`char*` such as `erefAlias` and attribute names) are
  modelled as `List Nat`, the list of their non-NUL bytes; `strcmp` is
  modelled by `strcmpInt`, which returns the byte difference at the
  first position where the strings differ, exactly the sign behaviour
  the source relies on.
* `float4`/`Cost` arithmetic is modelled over `ℚ`; the claims touched
  by it are settled by divergences that are far larger than any
  floating-point rounding.
* Catalog lookups (`heap_open`, `get_relid_attribute_name`,
  `find_inheritance_children`, `RelationGetIndexList`, ...) are
  collaborator calls; they are modelled by an environment record
  (`Env`) supplying their answers.
* `palloc` returns uninitialised memory.  A field that the C code
  reads without ever assigning (e.g. the `inh` flag of a candidate
  cloned by `expand_inherited_candidates`) is modelled by an
  unspecified fill value carried in the environment (`Env.uninitBool`,
  `Env.uninitNat`, `Env.uninitRat`): whatever byte pattern the
  allocator happened to return.
-/

/-- `INDEX_MAX_KEYS` from `pg_config_manual.h`: the hard limit on index
columns; `idx_adviser.c` uses it as the size of the per-candidate
column arrays and as the hard bound in `build_composite_candidates`. -/
def INDEX_MAX_KEYS : Nat := 32

/-- The `IndexCandidate` struct of `idx_adviser.h` (lines 25-46).
The per-column arrays (`vartype`, `varattno`, `varname`) are modelled
as lists read through `List.getD`, matching the C arrays of length
`INDEX_MAX_KEYS`; positions the C code leaves zeroed are zero here.
`attList` (the list of `FuncExpr` index expressions) is modelled as a
list of expression identifiers, since the engine only ever copies it
(`list_copy`) and unions it (`list_concat_unique`).  Fields the claims
never touch (`op_class`, `collationObjectId`, `tuples`, `amOid`) are
omitted from the model. -/
structure IndexCandidate where
  varno : Int
  varlevelsup : Int
  ncols : Nat
  vartype : List Nat
  varattno : List Int
  varname : List (List Nat)
  attList : List Nat
  reloid : Nat
  erefAlias : List Nat
  idxoid : Nat
  pages : Nat
  idxused : Bool
  benefit : ℚ
  inh : Bool
  parentOid : Nat
  deriving DecidableEq, Repr

/-- `varattno[i]` of a candidate: the C array read, with the zero fill
of positions never assigned. -/
def IndexCandidate.att (c : IndexCandidate) (i : Nat) : Int :=
  c.varattno.getD i 0

/-- `vartype[i]` of a candidate. -/
def IndexCandidate.typ (c : IndexCandidate) (i : Nat) : Nat :=
  c.vartype.getD i 0

/-- `varname[i]` of a candidate. -/
def IndexCandidate.nam (c : IndexCandidate) (i : Nat) : List Nat :=
  c.varname.getD i []

/-- `strcmp` on byte strings (no interior NUL bytes): returns the
difference of the first differing bytes, where a string that ends
first compares through its terminating NUL.  The engine only ever uses
the sign and zero-ness of the result. -/
def strcmpInt : List Nat → List Nat → Int
  | [], [] => 0
  | [], _ :: _ => -1
  | _ :: _, [] => 1
  | a :: as, b :: bs => if a = b then strcmpInt as bs else (a : Int) - (b : Int)

/-- First-difference comparison of two equal-length integer lists:
the value of a C loop that subtracts entries pairwise and stops at the
first nonzero difference (returning 0 if none). -/
def intListCmp : List Int → List Int → Int
  | a :: as, b :: bs => if a = b then intListCmp as bs else a - b
  | _, _ => 0

/-- The column positions compared by the do-while loop of
`compare_candidates` (`idx_adviser.c:2479-2483`): the loop body runs
once even for `ncols = 0`, so positions `0 .. max ncols 1 - 1` are
compared. -/
def IndexCandidate.attKeyList (c : IndexCandidate) : List Int :=
  (List.range (max c.ncols 1)).map c.att

/-- `compare_candidates` (`idx_adviser.c:2462-2489`): the canonical
ordering key — relation oid difference, then `strcmp` of the aliases,
then column-count difference, then the first differing `varattno`
within the first `ncols` positions (at least one position is compared,
mirroring the C do-while). -/
def compare_candidates (c1 c2 : IndexCandidate) : Int :=
  let r : Int := (c1.reloid : Int) - (c2.reloid : Int)
  if r = 0 then
    let s := strcmpInt c1.erefAlias c2.erefAlias
    if s = 0 then
      let n : Int := (c1.ncols : Int) - (c2.ncols : Int)
      if n = 0 then intListCmp c1.attKeyList c2.attKeyList
      else n
    else s
  else r

/-- The strict canonical order on candidates induced by
`compare_candidates`. -/
def candLt (c1 c2 : IndexCandidate) : Prop :=
  compare_candidates c1 c2 < 0

instance : DecidablePred fun p : IndexCandidate × IndexCandidate =>
    candLt p.1 p.2 := fun _ => by unfold candLt; infer_instance

instance (c1 c2 : IndexCandidate) : Decidable (candLt c1 c2) := by
  unfold candLt; infer_instance

/-- The lock-step merging loop of `merge_candidates`
(`idx_adviser.c:2611-2655`): emit the lesser-keyed head, and on an
exact key tie emit the head of list 1 and drop the head of list 2. -/
def mergeLoop : List IndexCandidate → List IndexCandidate → List IndexCandidate
  | [], l2 => l2
  | l1, [] => l1
  | a :: t1, b :: t2 =>
    let cmp := compare_candidates a b
    if cmp ≤ 0 then
      if cmp = 0 then a :: mergeLoop t1 t2
      else a :: mergeLoop t1 (b :: t2)
    else b :: mergeLoop (a :: t1) t2
termination_by l1 l2 => l1.length + l2.length

/-- `merge_candidates` (`idx_adviser.c:2579-2670`): the early returns
for an empty input, the `list1 == list2` shortcut (C pointer equality;
pointer-equal lists are structurally equal, and `mergeLoop l l = l`
below shows the shortcut agrees with the loop on every structurally
equal pair, so structural equality is a faithful model), then the
lock-step merge. -/
def merge_candidates (l1 l2 : List IndexCandidate) : List IndexCandidate :=
  if l1.length = 0 ∧ l2.length = 0 then []
  else if l1.length = 0 then l2
  else if l2.length = 0 then l1
  else if l1 = l2 then l1
  else mergeLoop l1 l2

/-- `list_concat_unique`: append to `l1` each member of `l2` not
already present in `l1`. -/
def list_concat_unique (l1 l2 : List Nat) : List Nat :=
  l1 ++ l2.filter (fun x => decide (x ∉ l1))

/-- Pad a column array out to `INDEX_MAX_KEYS` entries with the zeroes
the C code stores in the unused positions. -/
def padKeys (l : List Int) : List Int :=
  l ++ List.replicate (INDEX_MAX_KEYS - l.length) 0

/-- A physical index already present on a relation, as seen through
`RelationGetIndexList` / `BuildIndexInfo` in
`remove_irrelevant_candidates`: validity flag, expression and
predicate lists (abstract identifiers; only emptiness is inspected),
`ii_NumIndexAttrs` and `ii_KeyAttrNumbers`. -/
structure PhysIndex where
  indisvalid : Bool
  expressions : List Nat
  predicate : List Nat
  numIndexAttrs : Nat
  keyAttrNumbers : List Int
  deriving DecidableEq, Repr

/-- The collaborator environment: configuration GUCs read by the
engine, and the answers of every catalog lookup it performs.
`composit_max_cols` is the `index_adviser.composit_max_cols` GUC
(`idx_adviser.c:236-247`; its declared minimum is 1);
`partClauseCols` is the `index_adviser.cols` GUC after the `strtok`
comma-split of `idx_adviser.c:2128-2137`.  The `uninit*` fields are the
unspecified contents of `palloc`-allocated fields the C code reads
without assigning. -/
structure Env where
  composit_max_cols : Nat
  partClauseCols : List (List Nat)
  opnos : List Nat
  needsWAL : Nat → Bool
  isSystem : Nat → Bool
  attname : Nat → Int → List Nat
  children : Nat → List Nat
  indexes : Nat → List PhysIndex
  uninitBool : Bool
  uninitNat : Nat
  uninitRat : ℚ
  inhFuel : Nat
  text_pattern_ops : Bool
  defaultOpClass : Nat → Nat
  newIndexOid : Nat → Nat

/-- The pair of composite candidates built for one qualifying pair
`(cand1, cand2)` in `build_composite_candidates`
(`idx_adviser.c:2927-2997`): `cic1` carries the columns of `cand1`
followed by those of `cand2`, `cic2` the opposite order.  Fields the C
code never assigns on this `palloc` path (`inh`, `idxoid`, `pages`,
`benefit`, `parentOid`) receive the environment's unspecified fill
values. -/
def mkCompositeCand (env : Env) (rel : Nat) (al : List Nat)
    (first second : IndexCandidate) : IndexCandidate :=
  { varno := -1
    varlevelsup := -1
    ncols := first.ncols + second.ncols
    vartype := (List.range first.ncols).map first.typ
               ++ (List.range second.ncols).map second.typ
    varattno := padKeys ((List.range first.ncols).map first.att
               ++ (List.range second.ncols).map second.att)
    varname := (List.range first.ncols).map first.nam
               ++ (List.range second.ncols).map second.nam
    attList := list_concat_unique first.attList second.attList
    reloid := rel
    erefAlias := al
    idxoid := env.uninitNat
    pages := env.uninitNat
    idxused := false
    benefit := env.uninitRat
    inh := env.uninitBool
    parentOid := env.uninitNat }

/-- The common-attribute test of `build_composite_candidates`
(`idx_adviser.c:2904-2911`): do the two candidates share any
`varattno` within their first `ncols` positions? -/
def haveCommonAttr (c1 c2 : IndexCandidate) : Bool :=
  (List.range c1.ncols).any fun i1 =>
    (List.range c2.ncols).any fun i2 => c1.att i1 == c2.att i2

/-- The per-pair body of `build_composite_candidates`
(`idx_adviser.c:2894-3022`): if the combined width is strictly below
`INDEX_MAX_KEYS` and at most the configured maximum, and the pair
shares no column, build both orderings and merge them (ordered by
`compare_candidates`, one copy only on a tie) into the accumulated
composite list. -/
def bccEmit (env : Env) (rel : Nat) (al : List Nat)
    (cand1 cand2 : IndexCandidate) (acc : List IndexCandidate) :
    List IndexCandidate :=
  if cand1.ncols + cand2.ncols < INDEX_MAX_KEYS
      ∧ cand1.ncols + cand2.ncols ≤ env.composit_max_cols then
    if haveCommonAttr cand1 cand2 then acc
    else
      if compare_candidates (mkCompositeCand env rel al cand1 cand2)
          (mkCompositeCand env rel al cand2 cand1) = 0 then
        merge_candidates [mkCompositeCand env rel al cand1 cand2] acc
      else if compare_candidates (mkCompositeCand env rel al cand1 cand2)
          (mkCompositeCand env rel al cand2 cand1) < 0 then
        merge_candidates [mkCompositeCand env rel al cand1 cand2,
          mkCompositeCand env rel al cand2 cand1] acc
      else
        merge_candidates [mkCompositeCand env rel al cand2 cand1,
          mkCompositeCand env rel al cand1 cand2] acc
  else acc

/-- The nested do-while loops of `build_composite_candidates` over one
same-relation group (`idx_adviser.c:2889-3034`): for each member of
the group from list 2, pair it with each member of the group from
list 1. -/
def bccGroup (env : Env) (rel : Nat) (al : List Nat)
    (g1 g2 : List IndexCandidate) (acc : List IndexCandidate) :
    List IndexCandidate :=
  g2.foldl (fun acc2 cand2 =>
    g1.foldl (fun acc1 cand1 => bccEmit env rel al cand1 cand2 acc1) acc2) acc

/-- The outer while loop of `build_composite_candidates`
(`idx_adviser.c:2842-3036`).  On a nonzero combined
`(reloid difference) + strcmp(alias)` test the code advances one list:
its do-while reads the *stale* head candidate in its condition
(`idx_adviser.c:2866-2877`), so it advances exactly once when the
condition is false, and otherwise runs to the end of the list.  On a
zero test it processes the whole same-`reloid` group of both lists and
continues past both groups. -/
def bccLoop (env : Env) :
    List IndexCandidate → List IndexCandidate → List IndexCandidate →
    List IndexCandidate
  | c1 :: t1, c2 :: t2, acc =>
    let cmp := ((c1.reloid : Int) - (c2.reloid : Int))
               + strcmpInt c1.erefAlias c2.erefAlias
    if cmp = 0 then
      let rel := c1.reloid
      let al := c1.erefAlias
      let g1 := c1 :: t1.takeWhile (fun c => c.reloid == rel)
      let r1 := t1.dropWhile (fun c => c.reloid == rel)
      let g2 := c2 :: t2.takeWhile (fun c => c.reloid == rel)
      let r2 := t2.dropWhile (fun c => c.reloid == rel)
      bccLoop env r1 r2 (bccGroup env rel al g1 g2 acc)
    else if cmp < 0 then
      if c2.reloid > c1.reloid then bccLoop env [] (c2 :: t2) acc
      else bccLoop env t1 (c2 :: t2) acc
    else
      if c1.reloid > c2.reloid then bccLoop env (c1 :: t1) [] acc
      else bccLoop env (c1 :: t1) t2 acc
  | _, _, acc => acc
termination_by l1 l2 _ => l1.length + l2.length
decreasing_by
  · have h1 := List.Sublist.length_le (List.dropWhile_sublist
      (l := t1) (p := fun c => c.reloid == c1.reloid))
    have h2 := List.Sublist.length_le (List.dropWhile_sublist
      (l := t2) (p := fun c => c.reloid == c1.reloid))
    simp only [List.length_cons]
    omega
  · simp only [List.length_nil, List.length_cons]; omega
  · simp only [List.length_cons]; omega
  · simp only [List.length_nil, List.length_cons]; omega
  · simp only [List.length_cons]; omega

/-- `build_composite_candidates` (`idx_adviser.c:2822-3044`): an empty
input list yields no composites (`idx_adviser.c:2834-2835`), otherwise
run the pairing loop with an empty accumulator. -/
def build_composite_candidates (env : Env)
    (list1 list2 : List IndexCandidate) : List IndexCandidate :=
  if list1 = [] ∨ list2 = [] then []
  else bccLoop env list1 list2 []

/-- `BoolExprType`: the boolean operator of a `BoolExpr` node. -/
inductive BoolOpKind where
  | andOp | orOp | notOp
  deriving DecidableEq, Repr

/-- `RTEKind`: the kind of a range-table entry; the scanner only
distinguishes plain relations, CTE references and everything else. -/
inductive RTEKind where
  | relation | cte | subqueryKind | joinKind | other
  deriving DecidableEq, Repr

mutual

/-- The expression-tree node kinds the scanner
(`index_candidates_walker`, `idx_adviser.c:2039-2429`) dispatches on:
`Var`, `Const`, `OpExpr`, `BoolExpr`, `FuncExpr`, `RelabelType`, and a
nested `Query` (reached through sub-links).  `funcExpr` carries an
expression identifier modelling the node's identity, used where the C
code stores the copied `FuncExpr` itself into `attList`. -/
inductive PgNode : Type where
  | pgvar (varno : Nat) (varlevelsup : Nat) (varattno : Int) (vartype : Nat) : PgNode
  | pgconst : PgNode
  | opExpr (opno : Nat) (args : List PgNode) : PgNode
  | boolExpr (op : BoolOpKind) (args : List PgNode) : PgNode
  | funcExpr (exprId : Nat) (args : List PgNode) : PgNode
  | relabel (arg : PgNode) : PgNode
  | queryNode (q : PgQuery) : PgNode

/-- A `RangeTblEntry`: kind, relation oid, `eref->aliasname`, `inh`
flag, and the nested subquery / join alias expression when present. -/
inductive RTEntry : Type where
  | mk (rtekind : RTEKind) (relid : Nat) (aliasname : List Nat) (inh : Bool)
       (subquery : Option PgQuery) (joinaliasvars : Option PgNode) : RTEntry

/-- The parts of a `Query` node that `scan_query`
(`idx_adviser.c:1857-1966`) reads: the range table, the CTE list, the
jointree quals, the group and sort clauses (as 1-based
`tleSortGroupRef` indices into the target list) and the target list
(as bare expressions, the `expr` of each `TargetEntry`). -/
inductive PgQuery : Type where
  | mk (rtable : List RTEntry) (cteList : List PgQuery)
       (quals : Option PgNode) (groupClause : List Nat)
       (sortClause : List Nat) (targetList : List PgNode) : PgQuery

end

def RTEntry.rtekind : RTEntry → RTEKind
  | .mk k _ _ _ _ _ => k

def RTEntry.relid : RTEntry → Nat
  | .mk _ r _ _ _ _ => r

def RTEntry.aliasname : RTEntry → List Nat
  | .mk _ _ a _ _ _ => a

def RTEntry.inh : RTEntry → Bool
  | .mk _ _ _ i _ _ => i

def PgQuery.rtable : PgQuery → List RTEntry
  | .mk r _ _ _ _ _ => r

def PgQuery.cteList : PgQuery → List PgQuery
  | .mk _ c _ _ _ _ => c

def PgQuery.quals : PgQuery → Option PgNode
  | .mk _ _ q _ _ _ => q

def PgQuery.groupClause : PgQuery → List Nat
  | .mk _ _ _ g _ _ => g

def PgQuery.sortClause : PgQuery → List Nat
  | .mk _ _ _ _ s _ => s

def PgQuery.targetList : PgQuery → List PgNode
  | .mk _ _ _ _ _ t => t

/-- The fallback range-table entry used where the C code would index a
range table out of bounds (`list_nth` on a malformed query, which the
planner never hands over; the C behaviour there is a crash). -/
def defaultRTE : RTEntry := .mk .other 0 [] false none none

/-- One recorded relation-predicate fragment, the result of
`makePredicateClause` (`idx_adviser.c:3354-3361`): the comparison's
operator, its column operand (with `varno` overwritten to 1, as the C
code does) and its other operand (cast to `Const` by the caller). -/
structure PredClause where
  opno : Nat
  varArg : PgNode
  constArg : PgNode

/-- `makePredicateClause` forces `VarArg->varno = 1`. -/
def setVarnoOne : PgNode → PgNode
  | .pgvar _ lvl att ty => .pgvar 1 lvl att ty
  | n => n

def makePredicateClause (opno : Nat) (constArg varArg : PgNode) : PredClause :=
  { opno := opno, varArg := setVarnoOne varArg, constArg := constArg }

/-- The `RelClause` struct of `idx_adviser.h` (lines 51-55): predicate
fragments accumulated for one `(relation oid, alias)` key. -/
structure RelClause where
  reloid : Nat
  erefAlias : List Nat
  predicate : List PredClause

/-- `get_rel_clauses` (`idx_adviser.c:2494-2508`): the predicate list
of the first accumulator entry matching `(reloid, erefAlias)`, or the
empty list. -/
def get_rel_clauses (tc : List RelClause) (reloid : Nat) (al : List Nat) :
    List PredClause :=
  match tc.find? (fun rc => rc.reloid == reloid && rc.erefAlias == al) with
  | some rc => rc.predicate
  | none => []

/-- The accumulator update of the walker's partial-clause branch
(`idx_adviser.c:2139-2171`): append the fragment to the first entry
matching the key (`get_rel_clausesCell`), or append a fresh entry with
that single fragment at the end of the list. -/
def addPredToTC (tc : List RelClause) (reloid : Nat) (al : List Nat)
    (p : PredClause) : List RelClause :=
  match tc with
  | [] => [{ reloid := reloid, erefAlias := al, predicate := [p] }]
  | rc :: rest =>
    if rc.reloid == reloid && rc.erefAlias == al then
      { rc with predicate := rc.predicate ++ [p] } :: rest
    else rc :: addPredToTC rest reloid al p

/-- The candidate clone built per inheritance child in
`expand_inherited_candidates` (`idx_adviser.c:2715-2751`).  The C code
allocates with `palloc` and assigns every field except `inh`,
`idxoid`, `pages` and `benefit`; those four therefore hold whatever
the allocator returned, modelled by the environment's fill values. -/
def cloneForChild (env : Env) (cand : IndexCandidate) (childOID : Nat) :
    IndexCandidate :=
  { varno := -1
    varlevelsup := -1
    ncols := cand.ncols
    vartype := (List.range cand.ncols).map cand.typ
    varattno := padKeys ((List.range cand.ncols).map cand.att)
    varname := (List.range cand.ncols).map cand.nam
    attList := cand.attList
    reloid := childOID
    erefAlias := cand.erefAlias
    idxoid := env.uninitNat
    pages := env.uninitNat
    idxused := false
    benefit := env.uninitRat
    inh := env.uninitBool
    parentOid := cand.reloid }

/-- `expand_inherited_candidates` (`idx_adviser.c:2678-2757`): every
input candidate is appended to the output first; a candidate whose
`inh` flag is set is followed by one clone per inheritance child, or
has its flag cleared when the relation has no children. -/
def expand_inherited_candidates (env : Env) (list : List IndexCandidate) :
    List IndexCandidate :=
  list.foldl (fun acc cand =>
    if !cand.inh then acc ++ [cand]
    else
      let inhOIDs := env.children cand.reloid
      if inhOIDs.length < 1 then acc ++ [{ cand with inh := false }]
      else acc ++ [cand] ++ inhOIDs.map (cloneForChild env cand)) []

/-- One child clone of a relation-predicate accumulator entry
(`expand_inherited_rel_clauses`, `idx_adviser.c:2793-2808`). -/
def cloneRelClause (rc : RelClause) (childOID : Nat) : RelClause :=
  { reloid := childOID, erefAlias := rc.erefAlias, predicate := rc.predicate }

/-- The loop of `expand_inherited_rel_clauses`
(`idx_adviser.c:2763-2811`).  The C loop iterates over `table_clauses`
while appending to the same list, so freshly appended child entries are
themselves processed; that worklist iteration terminates exactly when
the catalog's child relation is acyclic, and is modelled with a fuel
bound (any fuel at least the size of the inheritance closure computes
the C loop's value; on exhaustion the remaining worklist is appended
unprocessed). -/
def expandRelClausesGo (env : Env) :
    Nat → List RelClause → List RelClause → List RelClause
  | 0, pending, done => done ++ pending
  | _ + 1, [], done => done
  | fuel + 1, rc :: rest, done =>
    let inhOIDs := env.children rc.reloid
    if inhOIDs.length < 1 then expandRelClausesGo env fuel rest (done ++ [rc])
    else expandRelClausesGo env fuel
      (rest ++ inhOIDs.map (cloneRelClause rc)) (done ++ [rc])

/-- `expand_inherited_rel_clauses` with the fuel bound supplied by the
environment (`Env.inhFuel`). -/
def expand_inherited_rel_clauses (env : Env) (tc : List RelClause) :
    List RelClause :=
  expandRelClausesGo env env.inhFuel tc []

/-- The unwrap loop of the walker's `T_FuncExpr` case
(`idx_adviser.c:2330-2345`): follow the first argument through nested
`FuncExpr`s and `RelabelType`s until a `Var` or `Const` is reached;
an `OpExpr` on the way means "too complex" (`none`).  A nested
function call with no arguments would crash the C code (`list_nth` on
an empty list); other node kinds would be reinterpreted as
`RelabelType` (undefined behaviour); both are modelled as abandoning
the functional-index candidate. -/
def funcUnwrap : PgNode → Option PgNode
  | .pgvar v l a t => some (.pgvar v l a t)
  | .pgconst => some .pgconst
  | .funcExpr _ (a :: _) => funcUnwrap a
  | .funcExpr _ [] => some .pgconst
  | .opExpr _ _ => none
  | .relabel a => funcUnwrap a
  | .boolExpr _ _ => none
  | .queryNode _ => none

/-- Result of the walker's scan of a supported comparison's arguments
for a configured partial-clause column (`idx_adviser.c:2112-2181`). -/
inductive PartialScanResult where
  | found (relid : Nat) (al : List Nat)
  | notFound

/-- The `foreach` over a supported `OpExpr`'s arguments
(`idx_adviser.c:2112-2181`): find the first `Var` argument whose
attribute name is in the configured partial-clause column list.  A
`Var` resolving to a CTE range-table entry aborts the whole scan
(`break`, `idx_adviser.c:2121`); a `Var` whose name is not configured
lets the scan continue with the next argument. -/
def icwPartialScan (env : Env) (rts : List (List RTEntry)) :
    List PgNode → PartialScanResult
  | [] => .notFound
  | n :: rest =>
    match n with
    | .pgvar varno lvl attno _ =>
      let rt := rts.getD lvl []
      let rte := rt.getD (varno - 1) defaultRTE
      if rte.rtekind = .cte then .notFound
      else if env.attname rte.relid attno ∈ env.partClauseCols then
        .found rte.relid rte.aliasname
      else icwPartialScan env rts rest
    | _ => icwPartialScan env rts rest

/-- The single-column candidate built by the walker's `T_Var` case
(`idx_adviser.c:2226-2248`); `palloc0` zero-fills every field the code
does not assign. -/
def mkVarCand (env : Env) (rte : RTEntry) (varno lvl : Nat) (attno : Int)
    (vty : Nat) : IndexCandidate :=
  { varno := (varno : Int)
    varlevelsup := (lvl : Int)
    ncols := 1
    vartype := [vty]
    varattno := padKeys [attno]
    varname := [env.attname rte.relid attno]
    attList := []
    reloid := rte.relid
    erefAlias := rte.aliasname
    idxoid := 0
    pages := 0
    idxused := false
    benefit := 0
    inh := rte.inh
    parentOid := 0 }

/-- The functional-index candidate built by the walker's `T_FuncExpr`
case (`idx_adviser.c:2362-2411`); `palloc0`-allocated, `varno` is
never assigned (the assignment is commented out) and every `varattno`
position is set to 0, marking an expression column; the copied
`FuncExpr` becomes the sole `attList` entry. -/
def mkFuncCand (rte : RTEntry) (lvl : Nat) (vty : Nat) (exprId : Nat) :
    IndexCandidate :=
  { varno := 0
    varlevelsup := (lvl : Int)
    ncols := 1
    vartype := [vty]
    varattno := padKeys []
    varname := []
    attList := [exprId]
    reloid := rte.relid
    erefAlias := rte.aliasname
    idxoid := 0
    pages := 0
    idxused := false
    benefit := 0
    inh := rte.inh
    parentOid := 0 }

/-- A candidate read through an uninitialised pointer: the walker's
`T_FuncExpr` case reaches its tail with the local `cand` never
assigned when the unwrapped `Var` has `varattno = 0`
(`idx_adviser.c:2350-2411`); the C behaviour is undefined, modelled by
the environment's fill values. -/
def uninitCand (env : Env) : IndexCandidate :=
  { varno := (env.uninitNat : Int)
    varlevelsup := (env.uninitNat : Int)
    ncols := env.uninitNat
    vartype := []
    varattno := []
    varname := []
    attList := []
    reloid := env.uninitNat
    erefAlias := []
    idxoid := env.uninitNat
    pages := env.uninitNat
    idxused := env.uninitBool
    benefit := env.uninitRat
    inh := env.uninitBool
    parentOid := env.uninitNat }

mutual

/-- `scan_query` (`idx_adviser.c:1857-1966`): push the range table,
scan CTE queries and range-table subqueries/join alias lists into the
accumulated pool, then scan the WHERE clause; GROUP BY is consulted
only if WHERE contributed nothing, ORDER BY only if GROUP BY
contributed nothing, the SELECT target list only if all of the above
contributed nothing; finally merge, expand inherited candidates and
expand the accumulated relation clauses. -/
def scan_query (env : Env) :
    PgQuery → List (List RTEntry) → List RelClause →
    List IndexCandidate × List RelClause
  | .mk rtable cteList quals groupClause sortClause targetList, rts, tc =>
    let rts2 := rtable :: rts
    let p1 := scanCteList env cteList rts2 [] tc
    let p2 := scanRtableList env rtable rts2 p1.1 p1.2
    let w := scanQuals env quals rts2 p2.2
    let g := if w.1.isEmpty ∧ ¬groupClause.isEmpty then
        scan_group_clause env groupClause targetList rts2 [] w.2
      else w
    let s := if g.1.isEmpty ∧ ¬sortClause.isEmpty then
        scan_group_clause env sortClause targetList rts2 [] g.2
      else g
    let t := if s.1.isEmpty ∧ ¬targetList.isEmpty then
        scan_targetList env targetList rts2 [] s.2
      else s
    let merged := merge_candidates p2.1 t.1
    (expand_inherited_candidates env merged,
     expand_inherited_rel_clauses env t.2)
termination_by q _ _ => (sizeOf q, 0, 0)

/-- The `foreach` over `query->cteList` (`idx_adviser.c:1873-1886`). -/
def scanCteList (env : Env) :
    List PgQuery → List (List RTEntry) → List IndexCandidate →
    List RelClause → List IndexCandidate × List RelClause
  | [], _, acc, tc => (acc, tc)
  | q :: rest, rts, acc, tc =>
    let p := scan_query env q rts tc
    scanCteList env rest rts (merge_candidates acc p.1) p.2
termination_by qs _ _ _ => (sizeOf qs, 2, 0)

/-- The `foreach` over `query->rtable` (`idx_adviser.c:1889-1914`):
scan nested subqueries and join alias expression lists. -/
def scanRtableList (env : Env) :
    List RTEntry → List (List RTEntry) → List IndexCandidate →
    List RelClause → List IndexCandidate × List RelClause
  | [], _, acc, tc => (acc, tc)
  | .mk _ _ _ _ subq jv :: rest, rts, acc, tc =>
    let p1 := scanOptQuery env subq rts acc tc
    let p2 := scanOptNode env jv rts p1.1 p1.2
    scanRtableList env rest rts p2.1 p2.2
termination_by rtes _ _ _ => (sizeOf rtes, 2, 0)

/-- Scan of `rte->subquery` when present. -/
def scanOptQuery (env : Env) :
    Option PgQuery → List (List RTEntry) → List IndexCandidate →
    List RelClause → List IndexCandidate × List RelClause
  | none, _, acc, tc => (acc, tc)
  | some q, rts, acc, tc =>
    let p := scan_query env q rts tc
    (merge_candidates acc p.1, p.2)
termination_by oq _ _ _ => (sizeOf oq, 2, 0)

/-- Scan of `rte->joinaliasvars` when present. -/
def scanOptNode (env : Env) :
    Option PgNode → List (List RTEntry) → List IndexCandidate →
    List RelClause → List IndexCandidate × List RelClause
  | none, _, acc, tc => (acc, tc)
  | some n, rts, acc, tc =>
    let p := scan_generic_node env n rts tc
    (merge_candidates acc p.1, p.2)
termination_by onode _ _ _ => (sizeOf onode, 2, 0)

/-- `if (query->jointree->quals != NULL)` (`idx_adviser.c:1916-1921`):
scan the WHERE clause. -/
def scanQuals (env : Env) :
    Option PgNode → List (List RTEntry) → List RelClause →
    List IndexCandidate × List RelClause
  | none, _, tc => ([], tc)
  | some w, rts, tc => scan_generic_node env w rts tc
termination_by oq _ _ => (sizeOf oq, 2, 0)

/-- `scan_group_clause` (`idx_adviser.c:1972-2003`), also used for the
ORDER BY clause: resolve each `tleSortGroupRef` (1-based) into the
target list and scan the resulting expression.  An out-of-range
reference would crash the C `list_nth` and is skipped here. -/
def scan_group_clause (env : Env) :
    List Nat → List PgNode → List (List RTEntry) → List IndexCandidate →
    List RelClause → List IndexCandidate × List RelClause
  | [], _, _, acc, tc => (acc, tc)
  | r :: rest, tl, rts, acc, tc =>
    if h : r - 1 < tl.length then
      let p := scan_generic_node env tl[r - 1] rts tc
      scan_group_clause env rest tl rts (merge_candidates acc p.1) p.2
    else scan_group_clause env rest tl rts acc tc
termination_by refs tl _ _ _ => (sizeOf tl, 3, refs.length)
decreasing_by
  all_goals first
    | decreasing_tactic
    | (simp_wf
       have hmem : tl[r - 1] ∈ tl := tl.getElem_mem h
       exact Prod.Lex.left _ _ (List.sizeOf_lt_of_mem hmem))

/-- `scan_targetList` (`idx_adviser.c:2010-2036`). -/
def scan_targetList (env : Env) :
    List PgNode → List (List RTEntry) → List IndexCandidate →
    List RelClause → List IndexCandidate × List RelClause
  | [], _, acc, tc => (acc, tc)
  | n :: rest, rts, acc, tc =>
    let p := scan_generic_node env n rts tc
    scan_targetList env rest rts (merge_candidates acc p.1) p.2
termination_by tl _ _ _ => (sizeOf tl, 2, 0)

/-- `scan_generic_node` (`idx_adviser.c:2436-2452`): run the walker on
a fresh context whose candidate list is `NIL` (the relation-clause
accumulator is the global `table_clauses` and is threaded through). -/
def scan_generic_node (env : Env) :
    PgNode → List (List RTEntry) → List RelClause →
    List IndexCandidate × List RelClause
  | n, rts, tc => index_candidates_walker env n rts ([], tc)
termination_by n _ _ => (sizeOf n, 1, 0)

/-- `index_candidates_walker` (`idx_adviser.c:2039-2429`).  Each arm
mirrors one `case` of the C switch; node kinds without a `case` fall
through to `expression_tree_walker`, which walks the children with the
same context. -/
def index_candidates_walker (env : Env) :
    PgNode → List (List RTEntry) → List IndexCandidate × List RelClause →
    List IndexCandidate × List RelClause
  | .boolExpr op args, rts, ctx =>
    if op ≠ .andOp then
      -- OR / NOT: merge the scan of every branch (idx_adviser.c:2060-2071)
      icwScanMergeList env args rts ctx
    else
      -- AND (idx_adviser.c:2073-2093).  `candidates` is the walker's local
      -- list (idx_adviser.c:2042); no statement of the function ever assigns
      -- it, so the composite builder below always receives the empty list.
      let candidates : List IndexCandidate := []
      let r := icwAndArgs env args rts candidates ctx.1 [] ctx.2
      (merge_candidates r.1 r.2.1, r.2.2)
  | .opExpr opno args, rts, ctx =>
    if opno ∈ env.opnos then
      match icwPartialScan env rts args with
      | .found relid al =>
        -- record a relation predicate fragment, emit no candidate, and do
        -- not descend (idx_adviser.c:2139-2179)
        let f := args.getD 0 .pgconst
        let s := args.getD 1 .pgconst
        let frag := match f with
          | .pgvar v l a t => makePredicateClause opno s (.pgvar v l a t)
          | _ => makePredicateClause opno f s
        (ctx.1, addPredToTC ctx.2 relid al frag)
      | .notFound => icwScanMergeList env args rts ctx
    else
      -- unsupported operator: `return false` without descending
      -- (idx_adviser.c:2195)
      ctx
  | .pgvar varno lvl attno vty, rts, ctx =>
    -- T_Var (idx_adviser.c:2200-2254)
    let rt := rts.getD lvl []
    let rte := rt.getD (varno - 1) defaultRTE
    if rte.rtekind = .relation then
      if env.needsWAL rte.relid && !env.isSystem rte.relid && decide (attno > 0)
      then ([mkVarCand env rte varno lvl attno vty], ctx.2)
      else ctx
    else ctx
  | .pgconst, _, ctx => ctx
  | .queryNode q, rts, ctx =>
    -- T_Query (idx_adviser.c:2258-2264): replaces the context candidates
    scan_query env q rts ctx.2
  | .relabel a, rts, ctx => index_candidates_walker env a rts ctx
  | .funcExpr exprId args, rts, ctx =>
    -- T_FuncExpr (idx_adviser.c:2281-2414)
    match args with
    | [] => ctx
    | a0 :: arest =>
      match funcUnwrap a0 with
      | some (.pgvar varno lvl attno vty) =>
        if attno ≠ 0 then
          let rt := rts.getD lvl []
          let rte := rt.getD (varno - 1) defaultRTE
          if rte.rtekind ≠ .relation then icwWalkList env (a0 :: arest) rts ctx
          else ([mkFuncCand rte lvl vty exprId], ctx.2)
        else ([{ uninitCand env with attList := [exprId] }], ctx.2)
      | some _ => icwWalkList env (a0 :: arest) rts ctx
      | none => icwWalkList env (a0 :: arest) rts ctx
termination_by n _ _ => (sizeOf n, 0, 0)

/-- The `foreach` merging a fresh scan of each node into the context
(the walker's OR/NOT and not-found-comparison folds,
`idx_adviser.c:2065-2071` and `idx_adviser.c:2183-2193`). -/
def icwScanMergeList (env : Env) :
    List PgNode → List (List RTEntry) → List IndexCandidate × List RelClause →
    List IndexCandidate × List RelClause
  | [], _, ctx => ctx
  | n :: rest, rts, ctx =>
    let p := scan_generic_node env n rts ctx.2
    icwScanMergeList env rest rts (merge_candidates ctx.1 p.1, p.2)
termination_by ns _ _ => (sizeOf ns, 2, 0)

/-- `expression_tree_walker`'s walk of a child list with the shared
context (the generic fallthrough at `idx_adviser.c:2428`). -/
def icwWalkList (env : Env) :
    List PgNode → List (List RTEntry) → List IndexCandidate × List RelClause →
    List IndexCandidate × List RelClause
  | [], _, ctx => ctx
  | n :: rest, rts, ctx =>
    icwWalkList env rest rts (index_candidates_walker env n rts ctx)
termination_by ns _ _ => (sizeOf ns, 2, 0)

/-- The AND-conjunct fold of the walker (`idx_adviser.c:2078-2089`):
scan each conjunct, build composites of the *local* `candidates` list
against the conjunct's result, merge the conjunct result into the
context and the composites into the composite accumulator.  Returns
`(context candidates, (composite list, relation clauses))`. -/
def icwAndArgs (env : Env) :
    List PgNode → List (List RTEntry) → List IndexCandidate →
    List IndexCandidate → List IndexCandidate → List RelClause →
    List IndexCandidate × List IndexCandidate × List RelClause
  | [], _, _, ctxCands, composite, tc => (ctxCands, composite, tc)
  | n :: rest, rts, localCands, ctxCands, composite, tc =>
    let p := scan_generic_node env n rts tc
    let cicList := build_composite_candidates env localCands p.1
    icwAndArgs env rest rts localCands
      (merge_candidates ctxCands p.1)
      (merge_candidates composite cicList) p.2
termination_by ns _ _ _ _ _ => (sizeOf ns, 2, 0)

end

/-- The existing-index comparison of `remove_irrelevant_candidates`
(`idx_adviser.c:1465-1480`): the candidate matches an existing index
iff its column count equals `ii_NumIndexAttrs` and the do-while over
`varattno[i] - ii_KeyAttrNumbers[i]` (at least one iteration, then
while `i < cand->ncols`) finds no difference. -/
def candMatchesIndex (c : IndexCandidate) (I : PhysIndex) : Bool :=
  c.ncols == I.numIndexAttrs
    && intListCmp c.attKeyList
        ((List.range (max c.ncols 1)).map (fun i => I.keyAttrNumbers.getD i 0))
      == 0

/-- The index filter of `remove_irrelevant_candidates` considers only
valid, non-expression, non-partial indexes (`idx_adviser.c:1446-1448`). -/
def plainValidIndex (I : PhysIndex) : Bool :=
  I.indisvalid && I.expressions.isEmpty && I.predicate.isEmpty

/-- The `foreach` over a relation's existing indexes in
`remove_irrelevant_candidates` (`idx_adviser.c:1437-1513`), acting on
the list from the current cell onward.  For each relevant index the
inner loop removes the first matching candidate (`break` after the
removal); the scan starts at the current cell, so the current
candidate itself is checked first.  The result records whether the
current cell survived, together with the rest of the list. -/
def riIndexes : List PhysIndex → Option IndexCandidate →
    List IndexCandidate → Option IndexCandidate × List IndexCandidate
  | [], h, l => (h, l)
  | I :: is, h, l =>
    if plainValidIndex I then
      match h with
      | some c =>
        if candMatchesIndex c I then riIndexes is none l
        else riIndexes is (some c) (l.eraseP (fun x => candMatchesIndex x I))
      | none => riIndexes is none (l.eraseP (fun x => candMatchesIndex x I))
    else riIndexes is h l

/-- The list handed on by `riIndexes` is a sublist of its input
(needed for the termination of `remove_irrelevant_candidates`). -/
theorem riIndexes_sublist (is : List PhysIndex) (h : Option IndexCandidate)
    (l : List IndexCandidate) : ((riIndexes is h l).2).Sublist l := by
  induction is generalizing h l with
  | nil => simp [riIndexes]
  | cons I is ih =>
    cases h with
    | none =>
      simp only [riIndexes]
      split
      · exact (ih none _).trans (List.eraseP_sublist l)
      · exact ih none l
    | some c =>
      simp only [riIndexes]
      split
      · split
        · exact ih none l
        · exact (ih (some c) _).trans (List.eraseP_sublist l)
      · exact ih (some c) l

/-- `remove_irrelevant_candidates` (`idx_adviser.c:1379-1542`).  At an
unsupported relation (not WAL-logged, or a system relation) every
candidate on that relation from the current cell onward is removed
(`idx_adviser.c:1396-1426`); otherwise the relation's existing indexes
are scanned, each removing the first matching candidate; the cursor
advances only when the current cell survived
(`idx_adviser.c:1534-1538`). -/
def remove_irrelevant_candidates (env : Env) :
    List IndexCandidate → List IndexCandidate
  | [] => []
  | c :: rest =>
    if !env.needsWAL c.reloid || env.isSystem c.reloid then
      remove_irrelevant_candidates env
        (rest.filter (fun x => x.reloid ≠ c.reloid))
    else
      match hri : riIndexes (env.indexes c.reloid) (some c) rest with
      | (some c2, rest2) => c2 :: remove_irrelevant_candidates env rest2
      | (none, rest2) => remove_irrelevant_candidates env rest2
termination_by l => l.length
decreasing_by
  · have hf := List.length_filter_le (fun x => x.reloid ≠ c.reloid) rest
    simp only [List.length_cons]
    omega
  · have hs := riIndexes_sublist (env.indexes c.reloid) (some c) rest
    rw [hri] at hs
    have hs2 : rest2.Sublist rest := hs
    have := hs2.length_le
    simp only [List.length_cons]
    omega
  · have hs := riIndexes_sublist (env.indexes c.reloid) (some c) rest
    rw [hri] at hs
    have hs2 : rest2.Sublist rest := hs
    have := hs2.length_le
    simp only [List.length_cons]
    omega

/-- Two's-complement truncation to the PostgreSQL `int8` C type (a
signed char): the type of the `totalSize` accumulator in
`index_adviser` (`idx_adviser.c:513`). -/
def int8wrap (n : Int) : Int := (n + 128) % 256 - 128

/-- `totalSize`: the sum of the `pages` of all candidates in the list,
accumulated in a signed char (`idx_adviser.c:513-517`). -/
def sumPagesInt8 (cands : List IndexCandidate) : Int :=
  cands.foldl (fun a c => int8wrap (a + (c.pages : Int))) 0

/-- The benefit distribution of `index_adviser`
(`idx_adviser.c:511-527`): every candidate in the list — used or not —
receives `totalCostSaved * (pages / totalSize)`, where `totalSize`
sums the pages of every candidate in the list.  (The C float division
by a zero `totalSize` is undefined there; in this model over `ℚ` it
yields benefit 0.) -/
def distribute_benefits (totalCostSaved : ℚ) (cands : List IndexCandidate) :
    List IndexCandidate :=
  let totalSize := sumPagesInt8 cands
  cands.map fun c =>
    { c with benefit := totalCostSaved * ((c.pages : ℚ) / (totalSize : ℚ)) }

/-- `tag_and_remove_candidates` (`idx_adviser.c:1549-1582`): when
either cost delta is positive, walk the new plan and set the `idxused`
flag of every candidate whose installed index oid is referenced by an
index-scan node of that plan.  The plan is an output of the external
planner; it is modelled by the list of index oids its scan nodes
reference (`mark_used_candidates` sets
`idxused := idxused || (idxoid == indexid)` over the whole walk).
The removal of unused candidates that the function's comment announces
is commented out in the source (`idx_adviser.c:1564-1581`), so the
list is returned with every candidate still present. -/
def tag_and_remove_candidates (startupCostSaved totalCostSaved : ℚ)
    (planIndexOids : List Nat) (cands : List IndexCandidate) :
    List IndexCandidate :=
  if startupCostSaved > 0 ∨ totalCostSaved > 0 then
    cands.map fun c =>
      { c with idxused := c.idxused || planIndexOids.contains c.idxoid }
  else cands

/-- The per-column operator class of `create_virtual_indexes`
(`idx_adviser.c:3112-3119`): the type's default btree operator class,
with `text_ops` (oid 3126) replaced by `text_pattern_ops` (oid 10049)
when the `index_adviser.text_pattern_ops` GUC is set. -/
def opClassFor (env : Env) (vartype : Nat) : Nat :=
  let o := env.defaultOpClass vartype
  if o = 3126 ∧ env.text_pattern_ops then 10049 else o

/-- `create_virtual_indexes` (`idx_adviser.c:3052-3208`): for each
candidate, compute the operator class of every column; a candidate
with a column whose type has no default operator class is deleted from
the list (`idx_adviser.c:3122-3138`); otherwise a hypothetical index
is created — carrying as its `ii_Predicate` the accumulated relation
clauses for the candidate's `(reloid, erefAlias)` key
(`idx_adviser.c:3097`) — and the candidate records the new index oid.
The returned pairs carry each surviving candidate together with the
predicate attached to its hypothetical index. -/
def create_virtual_indexes_go (env : Env) (tc : List RelClause) :
    Nat → List IndexCandidate → List (IndexCandidate × List PredClause)
  | _, [] => []
  | count, c :: rest =>
    if ((List.range c.ncols).map fun i => opClassFor env (c.typ i)).all
        (fun o => o ≠ 0) then
      ({ c with idxoid := env.newIndexOid count },
        get_rel_clauses tc c.reloid c.erefAlias)
        :: create_virtual_indexes_go env tc (count + 1) rest
    else create_virtual_indexes_go env tc count rest

def create_virtual_indexes (env : Env) (tc : List RelClause)
    (cands : List IndexCandidate) : List (IndexCandidate × List PredClause) :=
  create_virtual_indexes_go env tc 0 cands

/-- The recommendation rows emitted by `store_idx_advice`
(`idx_adviser.c:1217-1224`): one row per candidate, skipping every
candidate whose `idxused` flag is unset. -/
def store_idx_advice_rows (cands : List IndexCandidate) :
    List IndexCandidate :=
  cands.filter (·.idxused)

/-- Per-invocation collaborator answers for one `index_adviser` pass:
bootstrap mode, SPI connection success, the costs of the original and
re-planned plans, the index oids referenced by the re-planned plan's
scan nodes, the page estimates the re-planning assigns to installed
hypothetical indexes (`get_relation_info_callback`,
`idx_adviser.c:1074-1077`), and whether the advisory output table
exists with an acceptable shape. -/
structure AdviserEnv where
  env : Env
  bootstrap : Bool
  spiOk : Bool
  actualStartupCost : ℚ
  actualTotalCost : ℚ
  newStartupCost : ℚ
  newTotalCost : ℚ
  planIndexOids : List Nat
  pagesOf : Nat → Nat
  advTableOk : Bool

/-- The observable outcome of one `index_adviser` invocation: whether
a non-NULL plan is returned (only for EXPLAIN callers with stored
advice), the recursion-guard value on return, whether candidate
generation ran, the generated pool, the candidates installed as
hypothetical indexes, the recommendation rows emitted, and whether the
pass ended in the re-thrown storage error. -/
structure AdviserOutcome where
  plan : Bool
  guard : Int
  scanned : Bool
  generated : List IndexCandidate
  installed : List IndexCandidate
  stored : List IndexCandidate
  erred : Bool
  deriving DecidableEq, Repr

/-- `index_adviser` (`idx_adviser.c:302-633`).  The entry check
(`idx_adviser.c:338`) is `IsBootstrapProcessingMode() ||
SuppressRecursion++ > 0`: in bootstrap mode the increment is skipped
(C short-circuit) but the `DoneCleanly` decrement still runs, so the
guard drops by one; on a reentrant call (guard positive) the increment
and the final decrement cancel and the call is a silent no-op
returning a NULL plan.  Otherwise the pass runs: scan, filter, install
hypothetical indexes, re-plan (page estimates and the used-index set
coming from the planner collaborator), tag usage, distribute the
benefit, and store the used candidates' rows — storing throws a
user-visible error when the advisory table is unusable, decrementing
the guard before re-throwing (`idx_adviser.c:577-592`). -/
def index_adviser (A : AdviserEnv) (query : PgQuery) (doingExplain : Bool)
    (guard : Int) : AdviserOutcome :=
  if A.bootstrap then
    { plan := false, guard := guard - 1, scanned := false, generated := [],
      installed := [], stored := [], erred := false }
  else if guard > 0 then
    { plan := false, guard := guard, scanned := false, generated := [],
      installed := [], stored := [], erred := false }
  else
    let p := scan_query A.env query [] []
    let candidates := p.1
    if candidates.isEmpty then
      { plan := false, guard := guard, scanned := true, generated := [],
        installed := [], stored := [], erred := false }
    else
      let cands2 := remove_irrelevant_candidates A.env candidates
      if cands2.isEmpty then
        { plan := false, guard := guard, scanned := true,
          generated := candidates, installed := [], stored := [],
          erred := false }
      else if !A.spiOk then
        { plan := false, guard := guard, scanned := true,
          generated := candidates, installed := [], stored := [],
          erred := false }
      else
        let virt := create_virtual_indexes A.env p.2 cands2
        let cands3 := (virt.map Prod.fst).map
          fun c => { c with pages := A.pagesOf c.idxoid }
        let startupCostSaved := A.actualStartupCost - A.newStartupCost
        let totalCostSaved := A.actualTotalCost - A.newTotalCost
        let cands4 := tag_and_remove_candidates startupCostSaved
          totalCostSaved A.planIndexOids cands3
        let saveCandidates := !cands4.isEmpty
        let cands5 := if saveCandidates then
            distribute_benefits totalCostSaved cands4
          else cands4
        if saveCandidates ∧ !A.advTableOk then
          { plan := false, guard := guard, scanned := true,
            generated := candidates, installed := cands3, stored := [],
            erred := true }
        else
          { plan := doingExplain && saveCandidates, guard := guard,
            scanned := true, generated := candidates, installed := cands3,
            stored := if saveCandidates then store_idx_advice_rows cands5
              else [],
            erred := false }

/-! ## Properties of the canonical ordering key -/

theorem strcmpInt_eq_zero_iff (a b : List Nat) : strcmpInt a b = 0 ↔ a = b := by
  induction a generalizing b with
  | nil => cases b <;> simp [strcmpInt]
  | cons x as ih =>
    cases b with
    | nil => simp [strcmpInt]
    | cons y bs =>
      by_cases hxy : x = y
      · subst hxy
        simp [strcmpInt, ih]
      · have : (x : Int) - (y : Int) ≠ 0 := by
          intro hc
          exact hxy (by omega)
        simp [strcmpInt, hxy, this]

theorem strcmpInt_antisymm (a b : List Nat) : strcmpInt b a = -strcmpInt a b := by
  induction a generalizing b with
  | nil => cases b <;> simp [strcmpInt]
  | cons x as ih =>
    cases b with
    | nil => simp [strcmpInt]
    | cons y bs =>
      by_cases hxy : x = y
      · subst hxy
        simp [strcmpInt, ih]
      · have hyx : y ≠ x := fun h => hxy h.symm
        simp only [strcmpInt, if_neg hxy, if_neg hyx]
        ring

theorem strcmpInt_lt_trans {a b c : List Nat} (h1 : strcmpInt a b < 0)
    (h2 : strcmpInt b c < 0) : strcmpInt a c < 0 := by
  induction a generalizing b c with
  | nil =>
    cases c with
    | nil =>
      cases b with
      | nil => simpa [strcmpInt] using h1
      | cons y bs => simp [strcmpInt] at h2
    | cons z cs => simp [strcmpInt]
  | cons x as ih =>
    cases b with
    | nil => simp [strcmpInt] at h1
    | cons y bs =>
      cases c with
      | nil => simp [strcmpInt] at h2
      | cons z cs =>
        by_cases hxy : x = y
        · subst hxy
          by_cases hyz : x = z
          · subst hyz
            simp only [strcmpInt, if_pos rfl] at h1 h2 ⊢
            exact ih h1 h2
          · simp only [strcmpInt, if_pos rfl] at h2
            simp only [strcmpInt, if_neg hyz] at h2 ⊢
            exact h2
        · simp only [strcmpInt, if_neg hxy] at h1
          by_cases hyz : y = z
          · subst hyz
            simp only [strcmpInt, if_neg hxy]
            exact h1
          · simp only [strcmpInt, if_neg hyz] at h2
            have hxz : x ≠ z := by omega
            simp only [strcmpInt, if_neg hxz]
            omega

theorem intListCmp_self (l : List Int) : intListCmp l l = 0 := by
  induction l with
  | nil => simp [intListCmp]
  | cons x xs ih => simp [intListCmp, ih]

theorem intListCmp_eq_zero_iff {a b : List Int} (hlen : a.length = b.length) :
    intListCmp a b = 0 ↔ a = b := by
  induction a generalizing b with
  | nil =>
    cases b with
    | nil => simp [intListCmp]
    | cons y bs => simp at hlen
  | cons x as ih =>
    cases b with
    | nil => simp at hlen
    | cons y bs =>
      by_cases hxy : x = y
      · subst hxy
        simp only [List.length_cons] at hlen
        have hlen2 : as.length = bs.length := by omega
        simp [intListCmp, ih hlen2]
      · have : x - y ≠ 0 := fun h => hxy (by omega)
        simp [intListCmp, hxy, this]

theorem intListCmp_antisymm (a b : List Int) :
    intListCmp b a = -intListCmp a b := by
  induction a generalizing b with
  | nil => cases b <;> simp [intListCmp]
  | cons x as ih =>
    cases b with
    | nil => simp [intListCmp]
    | cons y bs =>
      by_cases hxy : x = y
      · subst hxy
        simp [intListCmp, ih]
      · have hyx : y ≠ x := fun h => hxy h.symm
        simp only [intListCmp, if_neg hxy, if_neg hyx]
        ring

theorem intListCmp_lt_trans {a b c : List Int} (hab : a.length = b.length)
    (hbc : b.length = c.length) (h1 : intListCmp a b < 0)
    (h2 : intListCmp b c < 0) : intListCmp a c < 0 := by
  induction a generalizing b c with
  | nil =>
    cases b with
    | nil => simp [intListCmp] at h1
    | cons y bs => simp at hab
  | cons x as ih =>
    cases b with
    | nil => simp at hab
    | cons y bs =>
      cases c with
      | nil => simp at hbc
      | cons z cs =>
        simp only [List.length_cons] at hab hbc
        by_cases hxy : x = y
        · subst hxy
          by_cases hyz : x = z
          · subst hyz
            simp only [intListCmp, if_pos rfl] at h1 h2 ⊢
            exact ih (by omega) (by omega) h1 h2
          · simp only [intListCmp, if_pos rfl] at h2
            simp only [intListCmp, if_neg hyz] at h2 ⊢
            exact h2
        · simp only [intListCmp, if_neg hxy] at h1
          by_cases hyz : y = z
          · subst hyz
            simp only [intListCmp, if_neg hxy]
            exact h1
          · simp only [intListCmp, if_neg hyz] at h2
            have hxz : x ≠ z := by omega
            simp only [intListCmp, if_neg hxz]
            omega

theorem compare_candidates_self (c : IndexCandidate) :
    compare_candidates c c = 0 := by
  have hs := (strcmpInt_eq_zero_iff c.erefAlias c.erefAlias).mpr rfl
  simp [compare_candidates, hs, intListCmp_self]

/-- A zero key comparison pins down every component the key reads. -/
theorem compare_candidates_eq_zero_key {a b : IndexCandidate}
    (h : compare_candidates a b = 0) :
    a.reloid = b.reloid ∧ a.erefAlias = b.erefAlias ∧ a.ncols = b.ncols ∧
      a.attKeyList = b.attKeyList := by
  simp only [compare_candidates] at h
  by_cases hr : (a.reloid : Int) - (b.reloid : Int) = 0
  · rw [if_pos hr] at h
    by_cases hs : strcmpInt a.erefAlias b.erefAlias = 0
    · rw [if_pos hs] at h
      by_cases hn : (a.ncols : Int) - (b.ncols : Int) = 0
      · rw [if_pos hn] at h
        have h1 : a.reloid = b.reloid := by omega
        have h2 := (strcmpInt_eq_zero_iff _ _).mp hs
        have h3 : a.ncols = b.ncols := by omega
        refine ⟨h1, h2, h3, ?_⟩
        have hlen : a.attKeyList.length = b.attKeyList.length := by
          simp [IndexCandidate.attKeyList, h3]
        exact (intListCmp_eq_zero_iff hlen).mp h
      · rw [if_neg hn] at h
        omega
    · rw [if_neg hs] at h
      exact absurd h hs
  · rw [if_neg hr] at h
    exact absurd h hr

/-- Key equivalence is a congruence for the comparison. -/
theorem compare_candidates_congr_left {a b : IndexCandidate}
    (h : compare_candidates a b = 0) (x : IndexCandidate) :
    compare_candidates a x = compare_candidates b x := by
  obtain ⟨h1, h2, h3, h4⟩ := compare_candidates_eq_zero_key h
  simp only [compare_candidates]
  rw [h1, h2, h3, h4]

theorem compare_candidates_antisymm (a b : IndexCandidate) :
    compare_candidates b a = -compare_candidates a b := by
  simp only [compare_candidates]
  by_cases hr : (a.reloid : Int) - (b.reloid : Int) = 0
  · have hr2 : (b.reloid : Int) - (a.reloid : Int) = 0 := by omega
    rw [if_pos hr, if_pos hr2]
    by_cases hs : strcmpInt a.erefAlias b.erefAlias = 0
    · have hs2 : strcmpInt b.erefAlias a.erefAlias = 0 := by
        rw [strcmpInt_antisymm]; omega
      rw [if_pos hs, if_pos hs2]
      by_cases hn : (a.ncols : Int) - (b.ncols : Int) = 0
      · have hn2 : (b.ncols : Int) - (a.ncols : Int) = 0 := by omega
        rw [if_pos hn, if_pos hn2, intListCmp_antisymm]
      · have hn2 : (b.ncols : Int) - (a.ncols : Int) ≠ 0 := by omega
        rw [if_neg hn, if_neg hn2]
        ring
    · have hs2 : strcmpInt b.erefAlias a.erefAlias ≠ 0 := by
        rw [strcmpInt_antisymm]; omega
      rw [if_neg hs, if_neg hs2, strcmpInt_antisymm]
  · have hr2 : (b.reloid : Int) - (a.reloid : Int) ≠ 0 := by omega
    rw [if_neg hr, if_neg hr2]
    ring

/-- The four ways a key comparison can come out negative. -/
theorem compare_candidates_lt_iff (a b : IndexCandidate) :
    compare_candidates a b < 0 ↔
      a.reloid < b.reloid ∨
      (a.reloid = b.reloid ∧ strcmpInt a.erefAlias b.erefAlias < 0) ∨
      (a.reloid = b.reloid ∧ a.erefAlias = b.erefAlias ∧ a.ncols < b.ncols) ∨
      (a.reloid = b.reloid ∧ a.erefAlias = b.erefAlias ∧ a.ncols = b.ncols ∧
        intListCmp a.attKeyList b.attKeyList < 0) := by
  simp only [compare_candidates]
  by_cases hr : (a.reloid : Int) - (b.reloid : Int) = 0
  · have hre : a.reloid = b.reloid := by omega
    rw [if_pos hr]
    by_cases hs : strcmpInt a.erefAlias b.erefAlias = 0
    · have hse := (strcmpInt_eq_zero_iff _ _).mp hs
      rw [if_pos hs]
      by_cases hn : (a.ncols : Int) - (b.ncols : Int) = 0
      · rw [if_pos hn]
        constructor
        · intro h
          exact Or.inr (Or.inr (Or.inr ⟨hre, hse, by omega, h⟩))
        · rintro (h | ⟨_, h⟩ | ⟨_, _, h⟩ | ⟨_, _, _, h⟩) <;> first | omega | exact h
      · rw [if_neg hn]
        constructor
        · intro h
          exact Or.inr (Or.inr (Or.inl ⟨hre, hse, by omega⟩))
        · rintro (h | ⟨_, h⟩ | ⟨_, _, h⟩ | ⟨_, _, h, _⟩) <;> omega
    · rw [if_neg hs]
      constructor
      · intro h
        exact Or.inr (Or.inl ⟨hre, h⟩)
      · rintro (h | ⟨_, h⟩ | ⟨_, he, _⟩ | ⟨_, he, _, _⟩)
        · omega
        · exact h
        · exact absurd ((strcmpInt_eq_zero_iff _ _).mpr he) hs
        · exact absurd ((strcmpInt_eq_zero_iff _ _).mpr he) hs
  · rw [if_neg hr]
    constructor
    · intro h
      exact Or.inl (by omega)
    · rintro (h | ⟨h, _⟩ | ⟨h, _⟩ | ⟨h, _⟩) <;> omega

/-- The canonical order is transitive. -/
theorem candLt_trans {a b c : IndexCandidate} (h1 : candLt a b)
    (h2 : candLt b c) : candLt a c := by
  unfold candLt at *
  rw [compare_candidates_lt_iff] at h1 h2 ⊢
  have hlen : ∀ x y : IndexCandidate, x.ncols = y.ncols →
      x.attKeyList.length = y.attKeyList.length := by
    intro x y h
    simp [IndexCandidate.attKeyList, h]
  rcases h1 with h1 | ⟨e1, h1⟩ | ⟨e1, f1, h1⟩ | ⟨e1, f1, g1, h1⟩ <;>
    rcases h2 with h2 | ⟨e2, h2⟩ | ⟨e2, f2, h2⟩ | ⟨e2, f2, g2, h2⟩
  · exact Or.inl (by omega)
  · exact Or.inl (by omega)
  · exact Or.inl (by omega)
  · exact Or.inl (by omega)
  · exact Or.inl (by omega)
  · exact Or.inr (Or.inl ⟨by omega, strcmpInt_lt_trans h1 h2⟩)
  · exact Or.inr (Or.inl ⟨by omega, f2 ▸ h1⟩)
  · exact Or.inr (Or.inl ⟨by omega, f2 ▸ h1⟩)
  · exact Or.inl (by omega)
  · exact Or.inr (Or.inl ⟨by omega, f1 ▸ h2⟩)
  · exact Or.inr (Or.inr (Or.inl ⟨by omega, f1.trans f2, by omega⟩))
  · exact Or.inr (Or.inr (Or.inl ⟨by omega, f1.trans f2, by omega⟩))
  · exact Or.inl (by omega)
  · exact Or.inr (Or.inl ⟨by omega, f1 ▸ h2⟩)
  · exact Or.inr (Or.inr (Or.inl ⟨by omega, f1.trans f2, by omega⟩))
  · exact Or.inr (Or.inr (Or.inr ⟨by omega, f1.trans f2, by omega,
      intListCmp_lt_trans (hlen _ _ g1) (hlen _ _ g2) h1 h2⟩))

/-! ## Properties of the canonical merge -/

theorem mergeLoop_self (l : List IndexCandidate) : mergeLoop l l = l := by
  induction l with
  | nil => simp [mergeLoop]
  | cons a t ih => simp [mergeLoop, compare_candidates_self, ih]

theorem merge_candidates_self (l : List IndexCandidate) :
    merge_candidates l l = l := by
  unfold merge_candidates
  by_cases h : l.length = 0
  · have : l = [] := List.length_eq_zero.mp h
    simp [this]
  · simp [h]

theorem mergeLoop_headQ (l1 l2 : List IndexCandidate) :
    (mergeLoop l1 l2).head? = l1.head? ∨ (mergeLoop l1 l2).head? = l2.head? := by
  match l1, l2 with
  | [], l2 => right; simp [mergeLoop]
  | a :: t1, [] => left; simp [mergeLoop]
  | a :: t1, b :: t2 =>
    simp only [mergeLoop]
    by_cases hle : compare_candidates a b ≤ 0
    · rw [if_pos hle]
      by_cases heq : compare_candidates a b = 0
      · rw [if_pos heq]; left; simp
      · rw [if_neg heq]; left; simp
    · rw [if_neg hle]; right; simp

theorem mergeLoop_chain' (l1 l2 : List IndexCandidate)
    (h1 : List.Chain' candLt l1) (h2 : List.Chain' candLt l2) :
    List.Chain' candLt (mergeLoop l1 l2) := by
  match l1, l2 with
  | [], l2 => simpa [mergeLoop] using h2
  | a :: t1, [] => simpa [mergeLoop] using h1
  | a :: t1, b :: t2 =>
    obtain ⟨ha, ht1⟩ := List.chain'_cons'.mp h1
    obtain ⟨hb, ht2⟩ := List.chain'_cons'.mp h2
    simp only [mergeLoop]
    by_cases hle : compare_candidates a b ≤ 0
    · rw [if_pos hle]
      by_cases heq : compare_candidates a b = 0
      · rw [if_pos heq]
        refine List.chain'_cons'.mpr ⟨?_, mergeLoop_chain' t1 t2 ht1 ht2⟩
        intro y hy
        rcases mergeLoop_headQ t1 t2 with hh | hh
        · exact ha y (hh ▸ hy)
        · have hby := hb y (hh ▸ hy)
          unfold candLt at hby ⊢
          rw [compare_candidates_congr_left heq y]
          exact hby
      · rw [if_neg heq]
        refine List.chain'_cons'.mpr ⟨?_, mergeLoop_chain' t1 (b :: t2) ht1 h2⟩
        intro y hy
        rcases mergeLoop_headQ t1 (b :: t2) with hh | hh
        · exact ha y (hh ▸ hy)
        · have : y = b := by
            rw [hh] at hy
            exact (by simpa using hy : b = y).symm
          subst this
          unfold candLt
          omega
    · rw [if_neg hle]
      refine List.chain'_cons'.mpr ⟨?_, mergeLoop_chain' (a :: t1) t2 h1 ht2⟩
      intro y hy
      rcases mergeLoop_headQ (a :: t1) t2 with hh | hh
      · have : y = a := by
          rw [hh] at hy
          exact (by simpa using hy : a = y).symm
        subst this
        unfold candLt
        rw [compare_candidates_antisymm]
        omega
      · exact hb y (hh ▸ hy)
termination_by l1.length + l2.length

theorem merge_candidates_chain' (l1 l2 : List IndexCandidate)
    (h1 : List.Chain' candLt l1) (h2 : List.Chain' candLt l2) :
    List.Chain' candLt (merge_candidates l1 l2) := by
  unfold merge_candidates
  split_ifs with hc1 hc2 hc3 hc4
  · simp
  · exact h2
  · exact h1
  · exact h1
  · exact mergeLoop_chain' l1 l2 h1 h2

instance : IsTrans IndexCandidate candLt := ⟨fun _ _ _ => candLt_trans⟩

theorem merge_candidates_pairwise (l1 l2 : List IndexCandidate)
    (h1 : List.Chain' candLt l1) (h2 : List.Chain' candLt l2) :
    List.Pairwise candLt (merge_candidates l1 l2) :=
  List.chain'_iff_pairwise.mp (merge_candidates_chain' l1 l2 h1 h2)

/-- A sample single-column candidate (relation oid 100, alias "t",
column 1), as the walker's `T_Var` case builds it. -/
def candT1 : IndexCandidate :=
  { varno := 1, varlevelsup := 0, ncols := 1, vartype := [23]
    varattno := padKeys [1], varname := [[97]], attList := []
    reloid := 100, erefAlias := [116], idxoid := 0, pages := 0
    idxused := false, benefit := 0, inh := false, parentOid := 0 }

/-- A second sample candidate on the same relation, column 2. -/
def candT2 : IndexCandidate := { candT1 with varattno := padKeys [2], varname := [[98]] }

/-- C5: for sorted, duplicate-free candidate pools `A` and `B`,
`merge(merge(A,B), merge(A,B)) = merge(A,B)`.  In the source the inner
result is one list passed twice, so the `list1 == list2` shortcut of
`merge_candidates` (`idx_adviser.c:2606`) fires; `mergeLoop_self`
shows the lock-step loop agrees with the shortcut on every pair of
equal lists. -/
theorem C5_merge_idempotent (A B : List IndexCandidate)
    (hA : List.Chain' candLt A) (hB : List.Chain' candLt B) :
    merge_candidates (merge_candidates A B) (merge_candidates A B) =
      merge_candidates A B :=
  merge_candidates_self _

theorem C5_witness :
    List.Chain' candLt [candT1] ∧ List.Chain' candLt [candT2] ∧
    merge_candidates (merge_candidates [candT1] [candT2])
        (merge_candidates [candT1] [candT2]) =
      merge_candidates [candT1] [candT2] :=
  ⟨by simp, by simp,
    C5_merge_idempotent [candT1] [candT2] (by simp) (by simp)⟩

/-- C6: merging two pools sorted under the canonical key yields a pool
sorted under that key, and on an exact key tie exactly one copy is
emitted and both inputs advance, so the output carries no pair of
key-equal candidates. -/
theorem C6_merge_sorted_dedup (l1 l2 : List IndexCandidate)
    (h1 : List.Chain' candLt l1) (h2 : List.Chain' candLt l2) :
    List.Chain' candLt (merge_candidates l1 l2) ∧
    List.Pairwise (fun a b => compare_candidates a b ≠ 0)
      (merge_candidates l1 l2) := by
  refine ⟨merge_candidates_chain' l1 l2 h1 h2, ?_⟩
  exact (merge_candidates_pairwise l1 l2 h1 h2).imp (fun h => by
    unfold candLt at h
    omega)

theorem C6_witness :
    List.Chain' candLt [candT1] ∧ List.Chain' candLt [candT1, candT2] ∧
    (List.Chain' candLt (merge_candidates [candT1] [candT1, candT2]) ∧
     List.Pairwise (fun a b => compare_candidates a b ≠ 0)
       (merge_candidates [candT1] [candT1, candT2])) :=
  ⟨by simp, by
    refine List.chain'_pair.mpr ?_
    unfold candLt
    decide,
   C6_merge_sorted_dedup [candT1] [candT1, candT2] (by simp) (by
    refine List.chain'_pair.mpr ?_
    unfold candLt
    decide)⟩

/-! ## Membership lemmas for the pipeline stages -/

theorem mergeLoop_mem {x : IndexCandidate} {l1 l2 : List IndexCandidate}
    (h : x ∈ mergeLoop l1 l2) : x ∈ l1 ∨ x ∈ l2 := by
  match l1, l2 with
  | [], l2 => right; simpa [mergeLoop] using h
  | a :: t1, [] => left; simpa [mergeLoop] using h
  | a :: t1, b :: t2 =>
    simp only [mergeLoop] at h
    by_cases hle : compare_candidates a b ≤ 0
    · rw [if_pos hle] at h
      by_cases heq : compare_candidates a b = 0
      · rw [if_pos heq] at h
        rcases List.mem_cons.mp h with hx | hx
        · exact Or.inl (hx ▸ List.mem_cons_self a t1)
        · rcases mergeLoop_mem hx with h1 | h2
          · exact Or.inl (List.mem_cons_of_mem a h1)
          · exact Or.inr (List.mem_cons_of_mem b h2)
      · rw [if_neg heq] at h
        rcases List.mem_cons.mp h with hx | hx
        · exact Or.inl (hx ▸ List.mem_cons_self a t1)
        · rcases mergeLoop_mem hx with h1 | h2
          · exact Or.inl (List.mem_cons_of_mem a h1)
          · exact Or.inr h2
    · rw [if_neg hle] at h
      rcases List.mem_cons.mp h with hx | hx
      · exact Or.inr (hx ▸ List.mem_cons_self b t2)
      · rcases mergeLoop_mem hx with h1 | h2
        · exact Or.inl h1
        · exact Or.inr (List.mem_cons_of_mem b h2)
termination_by l1.length + l2.length

theorem merge_candidates_mem {x : IndexCandidate} {l1 l2 : List IndexCandidate}
    (h : x ∈ merge_candidates l1 l2) : x ∈ l1 ∨ x ∈ l2 := by
  unfold merge_candidates at h
  split_ifs at h with hc1 hc2 hc3 hc4
  · simp at h
  · exact Or.inr h
  · exact Or.inl h
  · exact Or.inl h
  · exact mergeLoop_mem h

/-- The width discipline of one composite pair: both guard conditions
of `idx_adviser.c:2901` held and the composite's width is the sum. -/
def compositePairSpec (env : Env) (c1 c2 c : IndexCandidate) : Prop :=
  c1.ncols + c2.ncols < INDEX_MAX_KEYS ∧
  c1.ncols + c2.ncols ≤ env.composit_max_cols ∧
  c.ncols = c1.ncols + c2.ncols

theorem bccEmit_spec {env rel al} {c1 c2 : IndexCandidate}
    {acc : List IndexCandidate} {c : IndexCandidate}
    (h : c ∈ bccEmit env rel al c1 c2 acc) :
    c ∈ acc ∨ compositePairSpec env c1 c2 c := by
  unfold bccEmit at h
  split_ifs at h with hg hcommon hc0 hc1
  · exact Or.inl h
  · rcases merge_candidates_mem h with hm | hm
    · refine Or.inr ⟨hg.1, hg.2, ?_⟩
      simp only [List.mem_singleton] at hm
      subst hm
      rfl
    · exact Or.inl hm
  · rcases merge_candidates_mem h with hm | hm
    · refine Or.inr ⟨hg.1, hg.2, ?_⟩
      rcases List.mem_pair.mp hm with hm | hm <;> subst hm
      · rfl
      · simp [mkCompositeCand]; omega
    · exact Or.inl hm
  · rcases merge_candidates_mem h with hm | hm
    · refine Or.inr ⟨hg.1, hg.2, ?_⟩
      rcases List.mem_pair.mp hm with hm | hm <;> subst hm
      · simp [mkCompositeCand]; omega
      · rfl
    · exact Or.inl hm
  · exact Or.inl h

theorem bccInner_spec {env rel al} {c2 : IndexCandidate}
    (g1 : List IndexCandidate) (acc : List IndexCandidate)
    {c : IndexCandidate}
    (h : c ∈ g1.foldl (fun acc1 cand1 => bccEmit env rel al cand1 c2 acc1) acc) :
    c ∈ acc ∨ ∃ c1 ∈ g1, compositePairSpec env c1 c2 c := by
  induction g1 generalizing acc with
  | nil => exact Or.inl h
  | cons d g ih =>
    simp only [List.foldl_cons] at h
    rcases ih _ h with hacc | ⟨c1, hc1, hp⟩
    · rcases bccEmit_spec hacc with hm | hp
      · exact Or.inl hm
      · exact Or.inr ⟨d, List.mem_cons_self d g, hp⟩
    · exact Or.inr ⟨c1, List.mem_cons_of_mem d hc1, hp⟩

theorem bccGroup_spec {env rel al} (g1 g2 : List IndexCandidate)
    (acc : List IndexCandidate) {c : IndexCandidate}
    (h : c ∈ bccGroup env rel al g1 g2 acc) :
    c ∈ acc ∨ ∃ c1 ∈ g1, ∃ c2 ∈ g2, compositePairSpec env c1 c2 c := by
  unfold bccGroup at h
  induction g2 generalizing acc with
  | nil => exact Or.inl h
  | cons d g ih =>
    simp only [List.foldl_cons] at h
    rcases ih _ h with hacc | ⟨c1, hc1, c2, hc2, hp⟩
    · rcases bccInner_spec g1 acc hacc with hm | ⟨c1, hc1, hp⟩
      · exact Or.inl hm
      · exact Or.inr ⟨c1, hc1, d, List.mem_cons_self d g, hp⟩
    · exact Or.inr ⟨c1, hc1, c2, List.mem_cons_of_mem d hc2, hp⟩

theorem bccLoop_spec {env : Env} {l1 l2 acc : List IndexCandidate}
    {c : IndexCandidate} (h : c ∈ bccLoop env l1 l2 acc) :
    c ∈ acc ∨ ∃ c1 ∈ l1, ∃ c2 ∈ l2, compositePairSpec env c1 c2 c := by
  match l1, l2 with
  | [], l2 => simp only [bccLoop] at h; exact Or.inl h
  | a :: t1, [] => simp only [bccLoop] at h; exact Or.inl h
  | a :: t1, b :: t2 =>
    simp only [bccLoop] at h
    by_cases hz : ((a.reloid : Int) - (b.reloid : Int))
        + strcmpInt a.erefAlias b.erefAlias = 0
    · rw [if_pos hz] at h
      rcases bccLoop_spec h with hacc | ⟨c1, hc1, c2, hc2, hp⟩
      · rcases bccGroup_spec _ _ _ hacc with hm | ⟨c1, hc1, c2, hc2, hp⟩
        · exact Or.inl hm
        · refine Or.inr ⟨c1, ?_, c2, ?_, hp⟩
          · rcases List.mem_cons.mp hc1 with hx | hx
            · exact hx ▸ List.mem_cons_self a t1
            · exact List.mem_cons_of_mem a
                ((List.takeWhile_sublist _).mem hx)
          · rcases List.mem_cons.mp hc2 with hx | hx
            · exact hx ▸ List.mem_cons_self b t2
            · exact List.mem_cons_of_mem b
                ((List.takeWhile_sublist _).mem hx)
      · refine Or.inr ⟨c1, ?_, c2, ?_, hp⟩
        · exact List.mem_cons_of_mem a ((List.dropWhile_sublist _).mem hc1)
        · exact List.mem_cons_of_mem b ((List.dropWhile_sublist _).mem hc2)
    · rw [if_neg hz] at h
      by_cases hlt : ((a.reloid : Int) - (b.reloid : Int))
          + strcmpInt a.erefAlias b.erefAlias < 0
      · rw [if_pos hlt] at h
        split_ifs at h with hskip
        · exact Or.inl h
        · rcases bccLoop_spec h with hacc | ⟨c1, hc1, c2, hc2, hp⟩
          · exact Or.inl hacc
          · exact Or.inr ⟨c1, List.mem_cons_of_mem a hc1, c2, hc2, hp⟩
      · rw [if_neg hlt] at h
        split_ifs at h with hskip
        · exact Or.inl h
        · rcases bccLoop_spec h with hacc | ⟨c1, hc1, c2, hc2, hp⟩
          · exact Or.inl hacc
          · exact Or.inr ⟨c1, hc1, c2, List.mem_cons_of_mem b hc2, hp⟩
termination_by l1.length + l2.length
decreasing_by
  · have h1 := (List.dropWhile_sublist
      (l := t1) (p := fun c => c.reloid == a.reloid)).length_le
    have h2 := (List.dropWhile_sublist
      (l := t2) (p := fun c => c.reloid == a.reloid)).length_le
    simp only [List.length_cons]
    omega
  · simp only [List.length_cons]; omega
  · simp only [List.length_cons]; omega

theorem build_composite_candidates_spec {env : Env}
    {l1 l2 : List IndexCandidate} {c : IndexCandidate}
    (h : c ∈ build_composite_candidates env l1 l2) :
    ∃ c1 ∈ l1, ∃ c2 ∈ l2, compositePairSpec env c1 c2 c := by
  unfold build_composite_candidates at h
  split_ifs at h with he
  · simp at h
  · rcases bccLoop_spec h with hacc | hp
    · simp at hacc
    · exact hp

/-- Every candidate in the output of the inheritance expander is an
input candidate, an input candidate with its `inh` flag cleared, or a
per-child clone of an input candidate. -/
theorem expand_inherited_candidates_shape {env : Env}
    {l : List IndexCandidate} {c : IndexCandidate}
    (h : c ∈ expand_inherited_candidates env l) :
    ∃ c0 ∈ l, c = c0 ∨ c = { c0 with inh := false } ∨
      ∃ k ∈ env.children c0.reloid, c = cloneForChild env c0 k := by
  unfold expand_inherited_candidates at h
  suffices haux : ∀ (l : List IndexCandidate) (acc : List IndexCandidate),
      c ∈ l.foldl (fun acc cand =>
        if !cand.inh then acc ++ [cand]
        else
          let inhOIDs := env.children cand.reloid
          if inhOIDs.length < 1 then acc ++ [{ cand with inh := false }]
          else acc ++ [cand] ++ inhOIDs.map (cloneForChild env cand)) acc →
      c ∈ acc ∨ ∃ c0 ∈ l, c = c0 ∨ c = { c0 with inh := false } ∨
        ∃ k ∈ env.children c0.reloid, c = cloneForChild env c0 k by
    rcases haux l [] h with hc | hc
    · simp at hc
    · exact hc
  intro l
  induction l with
  | nil => intro acc h; exact Or.inl h
  | cons d rest ih =>
    intro acc h
    simp only [List.foldl_cons] at h
    rcases ih _ h with hacc | ⟨c0, hc0, hsh⟩
    · split_ifs at hacc with h1 h2
      · rcases List.mem_append.mp hacc with hm | hm
        · exact Or.inl hm
        · refine Or.inr ⟨d, List.mem_cons_self d rest, Or.inl ?_⟩
          simpa using hm
      · rcases List.mem_append.mp hacc with hm | hm
        · exact Or.inl hm
        · refine Or.inr ⟨d, List.mem_cons_self d rest, Or.inr (Or.inl ?_)⟩
          simpa using hm
      · rcases List.mem_append.mp hacc with hm | hm
        · rcases List.mem_append.mp hm with hm2 | hm2
          · exact Or.inl hm2
          · refine Or.inr ⟨d, List.mem_cons_self d rest, Or.inl ?_⟩
            simpa using hm2
        · rcases List.mem_map.mp hm with ⟨k, hk, hck⟩
          exact Or.inr ⟨d, List.mem_cons_self d rest,
            Or.inr (Or.inr ⟨k, hk, hck.symm⟩)⟩
    · exact Or.inr ⟨c0, List.mem_cons_of_mem d hc0, hsh⟩

/-- The head component of `riIndexes` is the input head or `none`. -/
theorem riIndexes_head (is : List PhysIndex) (h : Option IndexCandidate)
    (l : List IndexCandidate) :
    (riIndexes is h l).1 = h ∨ (riIndexes is h l).1 = none := by
  induction is generalizing h l with
  | nil => left; rfl
  | cons I is ih =>
    cases h with
    | none =>
      simp only [riIndexes]
      split
      · exact ih none _
      · exact ih none l
    | some c =>
      simp only [riIndexes]
      split
      · split
        · rcases ih none l with h | h <;> exact Or.inr h
        · exact ih (some c) _
      · exact ih (some c) l

/-- Every survivor of the irrelevant-candidate filter is an input
candidate. -/
theorem remove_irrelevant_candidates_mem {env : Env}
    {l : List IndexCandidate} {c : IndexCandidate}
    (h : c ∈ remove_irrelevant_candidates env l) : c ∈ l := by
  match l with
  | [] => simpa [remove_irrelevant_candidates] using h
  | d :: rest =>
    rw [remove_irrelevant_candidates] at h
    split_ifs at h with hsup
    · have := remove_irrelevant_candidates_mem h
      exact List.mem_cons_of_mem d (List.mem_of_mem_filter this)
    · rcases hm : riIndexes (env.indexes d.reloid) (some d) rest with ⟨h1, rest2⟩
      rw [hm] at h
      have hsub : rest2.Sublist rest := by
        have := riIndexes_sublist (env.indexes d.reloid) (some d) rest
        rw [hm] at this
        exact this
      cases h1 with
      | some c2 =>
        simp only at h
        rcases List.mem_cons.mp h with hc | hc
        · have : some c2 = some d ∨ (some c2 : Option IndexCandidate) = none := by
            have := riIndexes_head (env.indexes d.reloid) (some d) rest
            rw [hm] at this
            exact this
          rcases this with h2 | h2
          · simp only [Option.some.injEq] at h2
            exact List.mem_cons.mpr (Or.inl (hc.trans h2))
          · simp at h2
        · have := remove_irrelevant_candidates_mem hc
          exact List.mem_cons_of_mem d (hsub.mem this)
      | none =>
        simp only at h
        have := remove_irrelevant_candidates_mem h
        exact List.mem_cons_of_mem d (hsub.mem this)
termination_by l.length
decreasing_by
  · have hf := List.length_filter_le (fun x => x.reloid ≠ d.reloid) rest
    simp only [List.length_cons]
    omega
  · have := hsub.length_le
    simp only [List.length_cons]
    omega
  · have := hsub.length_le
    simp only [List.length_cons]
    omega

/-- The column-count invariant claimed for every candidate pool: at
least one column, at most the configured composite maximum, at most
the hard index column limit. -/
def poolBounded (env : Env) (l : List IndexCandidate) : Prop :=
  ∀ c ∈ l, 1 ≤ c.ncols ∧ c.ncols ≤ env.composit_max_cols ∧
    c.ncols ≤ INDEX_MAX_KEYS

instance (env : Env) (l : List IndexCandidate) :
    Decidable (poolBounded env l) := by
  unfold poolBounded; infer_instance

/-- C7: the column-count invariant, under the GUC bound
`index_adviser.composit_max_cols >= 1` (`idx_adviser.c:241`).  The
scanner's generators emit single-column candidates; every pipeline
stage — canonical merge, composite expansion, inheritance expansion,
the irrelevant-candidate filter and the benefit distribution —
preserves (or, for the composite expander, establishes) the invariant;
and in particular a composite is built only from a pair whose combined
width is at most the configured maximum and strictly below
`INDEX_MAX_KEYS`, the composite's width being exactly the sum. -/
theorem C7_column_count_invariant (env : Env)
    (hmax : 1 ≤ env.composit_max_cols) (q : ℚ)
    (l1 l2 : List IndexCandidate) (c : IndexCandidate)
    (rte : RTEntry) (varno lvl : Nat) (attno : Int) (vty exprId : Nat)
    (h1 : poolBounded env l1) (h2 : poolBounded env l2) :
    poolBounded env [mkVarCand env rte varno lvl attno vty] ∧
    poolBounded env [mkFuncCand rte lvl vty exprId] ∧
    poolBounded env (merge_candidates l1 l2) ∧
    poolBounded env (build_composite_candidates env l1 l2) ∧
    poolBounded env (expand_inherited_candidates env l1) ∧
    poolBounded env (remove_irrelevant_candidates env l1) ∧
    poolBounded env (distribute_benefits q l1) ∧
    (c ∈ build_composite_candidates env l1 l2 →
      ∃ c1 ∈ l1, ∃ c2 ∈ l2,
        c1.ncols + c2.ncols < INDEX_MAX_KEYS ∧
        c1.ncols + c2.ncols ≤ env.composit_max_cols ∧
        c.ncols = c1.ncols + c2.ncols) := by
  refine ⟨?_, ?_, ?_, ?_, ?_, ?_, ?_, fun h => build_composite_candidates_spec h⟩
  · intro x hx
    simp only [List.mem_singleton] at hx
    subst hx
    exact ⟨le_refl 1, hmax, by simp [mkVarCand, INDEX_MAX_KEYS]⟩
  · intro x hx
    simp only [List.mem_singleton] at hx
    subst hx
    exact ⟨le_refl 1, hmax, by simp [mkFuncCand, INDEX_MAX_KEYS]⟩
  · intro x hx
    rcases merge_candidates_mem hx with hm | hm
    · exact h1 x hm
    · exact h2 x hm
  · intro x hx
    obtain ⟨c1, hc1, c2, hc2, hlt, hle, hsum⟩ :=
      build_composite_candidates_spec hx
    have b1 := h1 c1 hc1
    have b2 := h2 c2 hc2
    exact ⟨by omega, by omega, by omega⟩
  · intro x hx
    obtain ⟨c0, hc0, hsh⟩ := expand_inherited_candidates_shape hx
    have b0 := h1 c0 hc0
    rcases hsh with rfl | rfl | ⟨k, hk, rfl⟩
    · exact b0
    · simpa using b0
    · simpa [cloneForChild] using b0
  · intro x hx
    exact h1 x (remove_irrelevant_candidates_mem hx)
  · intro x hx
    unfold distribute_benefits at hx
    rcases List.mem_map.mp hx with ⟨c0, hc0, rfl⟩
    simpa using h1 c0 hc0

/-- A concrete environment for witnesses: relation 100 ("t", columns
"a"/"b") is an ordinary WAL-logged user relation with child relations
101 and 102 and no existing indexes; the partial-clause column list is
`is_deleted`; composite indexes are capped at 3 columns. -/
def envW : Env :=
  { composit_max_cols := 3
    partClauseCols := [[105, 115, 95, 100, 101, 108, 101, 116, 101, 100]]
    opnos := [96]
    needsWAL := fun r => r == 100 || r == 101 || r == 102
    isSystem := fun _ => false
    attname := fun r a =>
      if r == 100 && a == 1 then [97]
      else if r == 100 && a == 2 then [98]
      else if r == 100 && a == 3 then
        [105, 115, 95, 100, 101, 108, 101, 116, 101, 100]
      else []
    children := fun r => if r == 100 then [101, 102] else []
    indexes := fun _ => []
    uninitBool := true
    uninitNat := 7
    uninitRat := 0
    inhFuel := 10
    text_pattern_ops := false
    defaultOpClass := fun _ => 1978
    newIndexOid := fun k => 90000 + k }

theorem C7_witness :
    1 ≤ envW.composit_max_cols ∧ poolBounded envW [candT1] ∧
    poolBounded envW [candT2] ∧
    poolBounded envW (merge_candidates [candT1] [candT2]) :=
  ⟨by decide, by decide, by decide,
    (C7_column_count_invariant envW (by decide) 0 [candT1] [candT2]
      candT1 defaultRTE 1 0 1 23 0 (by decide) (by decide)).2.2.1⟩

/-! ## The irrelevant-candidate filter (claim C2) -/

theorem riIndexes_none_fst (is : List PhysIndex) (l : List IndexCandidate) :
    (riIndexes is none l).1 = none := by
  rcases riIndexes_head is none l with h | h <;> exact h

/-- When the current cell survives the index sweep, it is the input
head and matches none of the relevant indexes. -/
theorem riIndexes_some_spec {is : List PhysIndex} {c c2 : IndexCandidate}
    {l rest2 : List IndexCandidate}
    (h : riIndexes is (some c) l = (some c2, rest2)) :
    c2 = c ∧ ∀ I ∈ is, plainValidIndex I = true → candMatchesIndex c I = false := by
  induction is generalizing l with
  | nil =>
    simp only [riIndexes, Prod.mk.injEq, Option.some.injEq] at h
    exact ⟨h.1.symm, by simp⟩
  | cons I is ih =>
    simp only [riIndexes] at h
    split_ifs at h with hplain hmatch
    · exfalso
      have := riIndexes_none_fst is l
      rw [h] at this
      simp at this
    · obtain ⟨hc, hrest⟩ := ih h
      refine ⟨hc, ?_⟩
      intro J hJ hJplain
      rcases List.mem_cons.mp hJ with rfl | hJ
      · simpa using hmatch
      · exact hrest J hJ hJplain
    · obtain ⟨hc, hrest⟩ := ih h
      refine ⟨hc, ?_⟩
      intro J hJ hJplain
      rcases List.mem_cons.mp hJ with rfl | hJ
      · exact absurd hJplain (by simpa using hplain)
      · exact hrest J hJ hJplain

/-- C2, amended.  The claim as stated fails on the code (see
`C2_counterexample`): the filter drops a candidate only when its column
sequence equals the *entire* key column list of an existing plain
index — same column count and order (`idx_adviser.c:1465-1479`) — not
when it only equals a shorter prefix of it.  Amended claim: after the
filter, every surviving candidate is on a WAL-logged non-system
relation, and no surviving candidate's column sequence equals, with
the same column count and order, the full key column list of an
existing valid plain (non-expression, non-partial) physical index on
its relation. -/
theorem C2_filter_amended (env : Env) (l : List IndexCandidate)
    (c : IndexCandidate)
    (h : c ∈ remove_irrelevant_candidates env l) :
    env.needsWAL c.reloid = true ∧ env.isSystem c.reloid = false ∧
      ∀ I ∈ env.indexes c.reloid, plainValidIndex I = true →
        candMatchesIndex c I = false := by
  match l with
  | [] => simp [remove_irrelevant_candidates] at h
  | d :: rest =>
    rw [remove_irrelevant_candidates] at h
    split_ifs at h with hsup
    · exact C2_filter_amended env _ c h
    · rcases hm : riIndexes (env.indexes d.reloid) (some d) rest with ⟨h1, rest2⟩
      rw [hm] at h
      cases h1 with
      | some c2 =>
        simp only at h
        rcases List.mem_cons.mp h with rfl | hc
        · obtain ⟨rfl, hnone⟩ := riIndexes_some_spec hm
          simp only [Bool.or_eq_true, not_or, Bool.not_eq_true] at hsup
          refine ⟨?_, hsup.2, hnone⟩
          simpa using hsup.1
        · exact C2_filter_amended env _ c hc
      | none =>
        simp only at h
        exact C2_filter_amended env _ c h
termination_by l.length
decreasing_by
  · have hf := List.length_filter_le (fun x => x.reloid ≠ d.reloid) rest
    simp only [List.length_cons]
    omega
  · have hs := riIndexes_sublist (env.indexes d.reloid) (some d) rest
    rw [hm] at hs
    have hs2 : rest2.Sublist rest := hs
    have := hs2.length_le
    simp only [List.length_cons]
    omega
  · have hs := riIndexes_sublist (env.indexes d.reloid) (some d) rest
    rw [hm] at hs
    have hs2 : rest2.Sublist rest := hs
    have := hs2.length_le
    simp only [List.length_cons]
    omega

/-- An existing valid plain two-column index on columns (1, 2). -/
def idxAB : PhysIndex :=
  { indisvalid := true, expressions := [], predicate := []
    numIndexAttrs := 2, keyAttrNumbers := [1, 2] }

/-- `envW` with `idxAB` installed on relation 100. -/
def envC : Env := { envW with indexes := fun r => if r == 100 then [idxAB] else [] }

/-- The filter run on the counterexample pool, evaluated. -/
theorem filter_envC_eval :
    remove_irrelevant_candidates envC [candT1] = [candT1] := by
  have harg : envC.indexes candT1.reloid = [idxAB] := by
    norm_num [envC, envW, candT1]
  have hEval : riIndexes (envC.indexes candT1.reloid) (some candT1) [] =
      (some candT1, []) := by
    rw [harg]
    simp only [riIndexes]
    rw [if_pos (by decide : plainValidIndex idxAB = true)]
    rw [if_neg (by decide : ¬candMatchesIndex candT1 idxAB = true)]
    simp [riIndexes]
  rw [remove_irrelevant_candidates]
  rw [if_neg (by decide :
    ¬((!envC.needsWAL candT1.reloid || envC.isSystem candT1.reloid) = true))]
  split
  · rename_i c2 rest2 heq
    rw [hEval] at heq
    simp only [Prod.mk.injEq, Option.some.injEq] at heq
    rw [← heq.1, ← heq.2]
    simp [remove_irrelevant_candidates]
  · rename_i rest2 heq
    rw [hEval] at heq
    simp at heq

/-- C2 counterexample: the single-column candidate on column 1 of
relation 100 *survives* the filter although its column sequence equals
the same-length prefix (column 1) of the existing valid plain index on
columns (1, 2) of the same relation — so the claim's prefix-based
dropping does not happen. -/
theorem C2_counterexample :
    remove_irrelevant_candidates envC [candT1] = [candT1] ∧
    idxAB ∈ envC.indexes candT1.reloid ∧
    plainValidIndex idxAB = true ∧
    candT1.ncols = 1 ∧
    (List.range candT1.ncols).map candT1.att =
      (List.range candT1.ncols).map (fun i => idxAB.keyAttrNumbers.getD i 0) :=
  ⟨filter_envC_eval, by decide, by decide, by decide, by decide⟩

theorem C2_witness :
    candT1 ∈ remove_irrelevant_candidates envC [candT1] ∧
    idxAB ∈ envC.indexes candT1.reloid ∧ plainValidIndex idxAB = true ∧
    (envC.needsWAL candT1.reloid = true ∧
     envC.isSystem candT1.reloid = false ∧
     candMatchesIndex candT1 idxAB = false) := by
  have hmem : candT1 ∈ remove_irrelevant_candidates envC [candT1] := by
    rw [filter_envC_eval]
    exact List.mem_singleton.mpr rfl
  have hmain := C2_filter_amended envC [candT1] candT1 hmem
  exact ⟨hmem, by decide, by decide, hmain.1, hmain.2.1,
    hmain.2.2 idxAB (by decide) (by decide)⟩

/-- A candidate on relation 100 with the inheritance flag set. -/
def candInh : IndexCandidate := { candT1 with inh := true }

/-- A candidate on the childless relation 101 with the flag set. -/
def candInh101 : IndexCandidate := { candT1 with reloid := 101, inh := true }

/-- C4, evaluated at a concrete failing input.  The no-children branch
behaves exactly as claimed (flag cleared, only the original kept).
With children 101 and 102 the expanded pool is the original plus one
clone per child, and each clone carries the child relation oid, the
same column count, attribute numbers, types and names, and the parent
back-reference — but the clone's inheritance flag is *not* cleared:
`expand_inherited_candidates` allocates the clone with `palloc` and
never assigns `cic->inh` (`idx_adviser.c:2719-2749`), so the flag
holds whatever the allocator returned — here the environment's fill
value `true`, contradicting the claim's "inheritance flag cleared on
the clone". -/
theorem C4_inheritance_expansion_bug :
    expand_inherited_candidates envW [candInh101] =
      [{ candInh101 with inh := false }] ∧
    expand_inherited_candidates envW [candInh] =
      [candInh, cloneForChild envW candInh 101, cloneForChild envW candInh 102] ∧
    ((cloneForChild envW candInh 101).reloid = 101 ∧
     (cloneForChild envW candInh 102).reloid = 102 ∧
     (cloneForChild envW candInh 101).ncols = candInh.ncols ∧
     (List.range candInh.ncols).map (cloneForChild envW candInh 101).att =
       (List.range candInh.ncols).map candInh.att ∧
     (List.range candInh.ncols).map (cloneForChild envW candInh 101).typ =
       (List.range candInh.ncols).map candInh.typ ∧
     (List.range candInh.ncols).map (cloneForChild envW candInh 101).nam =
       (List.range candInh.ncols).map candInh.nam ∧
     (cloneForChild envW candInh 101).parentOid = candInh.reloid) ∧
    envW.uninitBool = true ∧
    (cloneForChild envW candInh 101).inh = true := by
  decide

/-- A used candidate with a one-page footprint, as tagged after the
re-plan. -/
def candUsed : IndexCandidate :=
  { candT1 with idxoid := 9001, pages := 1, idxused := true }

/-- An unused candidate with a one-page footprint. -/
def candUnused : IndexCandidate :=
  { candT2 with idxoid := 9002, pages := 1, idxused := false }

/-- C3, evaluated at a concrete failing input.  With a cost delta of
10 and two surviving candidates of one page each — one used by the
re-planned plan, one not — the code distributes the delta over *all*
candidates (`idx_adviser.c:511-527` iterates the whole list; the
removal of unused candidates in `tag_and_remove_candidates` is
commented out, `idx_adviser.c:1564-1581`): the used candidate receives
5 and the unused one receives 5.  The claim says the used candidates'
benefits sum to the delta (10) and unused candidates receive zero.
The claim's third part does hold: only the used candidate is projected
into a recommendation row (`idx_adviser.c:1223-1224`). -/
theorem C3_benefit_distribution_bug :
    distribute_benefits 10 [candUsed, candUnused] =
      [{ candUsed with benefit := 5 }, { candUnused with benefit := 5 }] ∧
    store_idx_advice_rows (distribute_benefits 10 [candUsed, candUnused]) =
      [{ candUsed with benefit := 5 }] ∧
    ({ candUsed with benefit := (5 : ℚ) }.benefit ≠ 10) ∧
    ({ candUnused with benefit := (5 : ℚ) }.benefit ≠ 0) := by
  refine ⟨?_, ?_, by norm_num, by norm_num⟩
  · show List.map _ _ = _
    simp only [distribute_benefits, sumPagesInt8, int8wrap]
    norm_num [candUsed, candUnused, candT1, candT2, List.foldl]
  · show List.filter _ _ = _
    simp only [store_idx_advice_rows, distribute_benefits, sumPagesInt8,
      int8wrap]
    norm_num [candUsed, candUnused, candT1, candT2, List.foldl]

/-- The range-table entry of relation 100 under alias "t". -/
def rteT : RTEntry := .mk .relation 100 [116] false none none

/-- The WHERE expression `a = const AND b = const` on relation 100
(operator 96 is the supported equality operator of `envW`). -/
def andQualAB : PgNode :=
  .boolExpr .andOp [.opExpr 96 [.pgvar 1 0 1 23, .pgconst],
                    .opExpr 96 [.pgvar 1 0 2 23, .pgconst]]

/-- C1, evaluated at a concrete failing input.  Scanning the AND of
two supported equality comparisons on columns 1 and 2 of relation 100
yields only the two single-column candidates — not the four candidates
(two singles plus both composite orderings) the claim requires.  The
AND branch of `index_candidates_walker` passes its local `candidates`
list to `build_composite_candidates` (`idx_adviser.c:2085`), but no
statement of the function ever assigns that local
(`idx_adviser.c:2042`): the builder always receives an empty first
list and returns no composites (`idx_adviser.c:2834-2835`).  The last
conjunct shows the builder does produce the two composite orderings
when given the accumulated pool, as the merged `context->candidates`
would have supplied. -/
theorem C1_composite_expansion_bug :
    scan_generic_node envW andQualAB [[rteT]] [] = ([candT1, candT2], []) ∧
    (scan_generic_node envW andQualAB [[rteT]] []).1.length = 2 ∧
    build_composite_candidates envW [] [candT2] = [] ∧
    (build_composite_candidates envW [candT1] [candT2]).length = 2 := by
  have h : scan_generic_node envW andQualAB [[rteT]] [] =
      ([candT1, candT2], []) := by
    simp [andQualAB, scan_generic_node, index_candidates_walker, icwAndArgs,
      icwScanMergeList, icwPartialScan, rteT, envW, mkVarCand, candT1, candT2,
      defaultRTE, RTEntry.rtekind, RTEntry.relid, RTEntry.aliasname,
      RTEntry.inh, merge_candidates, mergeLoop, build_composite_candidates,
      compare_candidates, strcmpInt, intListCmp, IndexCandidate.attKeyList,
      IndexCandidate.att, padKeys, INDEX_MAX_KEYS]
  refine ⟨h, by rw [h]; rfl, by simp [build_composite_candidates], ?_⟩
  have hb : build_composite_candidates envW [candT1] [candT2] =
      bccGroup envW 100 [116] [candT1] [candT2] [] := by
    rw [build_composite_candidates, if_neg (by simp)]
    simp [bccLoop, candT1, candT2, strcmpInt]
  rw [hb]
  decide

/-! ## The partial-clause fragment path (claim C8) -/

/-- Appending a fragment under a key extends exactly that key's
predicate list by that one fragment. -/
theorem get_rel_clauses_addPred (tc : List RelClause) (relid : Nat)
    (al : List Nat) (p : PredClause) :
    get_rel_clauses (addPredToTC tc relid al p) relid al =
      get_rel_clauses tc relid al ++ [p] := by
  induction tc with
  | nil => simp [addPredToTC, get_rel_clauses, List.find?]
  | cons rc rest ih =>
    by_cases hk : rc.reloid == relid && rc.erefAlias == al
    · simp [addPredToTC, hk, get_rel_clauses, List.find?]
    · simp only [addPredToTC, hk, Bool.false_eq_true, if_false]
      simpa [get_rel_clauses, List.find?, hk] using ih

/-- Every virtual index created carries, as its `ii_Predicate`, the
accumulated relation clauses for its candidate's key. -/
theorem create_virtual_indexes_predicate {env : Env} {tc : List RelClause}
    {cands : List IndexCandidate} {pr : IndexCandidate × List PredClause}
    (h : pr ∈ create_virtual_indexes env tc cands) :
    pr.2 = get_rel_clauses tc pr.1.reloid pr.1.erefAlias := by
  unfold create_virtual_indexes at h
  suffices haux : ∀ (count : Nat) (cands : List IndexCandidate),
      pr ∈ create_virtual_indexes_go env tc count cands →
      pr.2 = get_rel_clauses tc pr.1.reloid pr.1.erefAlias from haux 0 cands h
  intro count cands h
  induction cands generalizing count with
  | nil => simp [create_virtual_indexes_go] at h
  | cons c rest ih =>
    simp only [create_virtual_indexes_go] at h
    split_ifs at h with hall
    · rcases List.mem_cons.mp h with rfl | hm
      · rfl
      · exact ih _ hm
    · exact ih _ h

/-- C8: a supported comparison against a configured partial-clause
column on a non-CTE relation entry emits no candidate and records
exactly one predicate fragment keyed by the relation's
`(relid, aliasname)` (`idx_adviser.c:2112-2181`); the accumulated
fragments for that key are later attached as the `ii_Predicate` of
every hypothetical index created for a candidate carrying that key
(`idx_adviser.c:3097`). -/
theorem C8_partial_clause_fragment (env : Env)
    (rts : List (List RTEntry)) (tc : List RelClause)
    (ctx : List IndexCandidate) (opno varno lvl vty : Nat) (attno : Int)
    (rte : RTEntry) (args : List PgNode) (cands : List IndexCandidate)
    (pr : IndexCandidate × List PredClause)
    (hop : opno ∈ env.opnos)
    (hargs : args = [PgNode.pgvar varno lvl attno vty, PgNode.pgconst] ∨
      args = [PgNode.pgconst, PgNode.pgvar varno lvl attno vty])
    (hrte : (rts.getD lvl []).getD (varno - 1) defaultRTE = rte)
    (hkind : rte.rtekind = RTEKind.relation)
    (hname : env.attname rte.relid attno ∈ env.partClauseCols)
    (hpr : pr ∈ create_virtual_indexes env
      (addPredToTC tc rte.relid rte.aliasname
        (makePredicateClause opno PgNode.pgconst
          (PgNode.pgvar varno lvl attno vty))) cands)
    (hprkey : pr.1.reloid = rte.relid ∧ pr.1.erefAlias = rte.aliasname) :
    index_candidates_walker env (.opExpr opno args) rts (ctx, tc) =
      (ctx, addPredToTC tc rte.relid rte.aliasname
        (makePredicateClause opno PgNode.pgconst
          (PgNode.pgvar varno lvl attno vty))) ∧
    get_rel_clauses (addPredToTC tc rte.relid rte.aliasname
        (makePredicateClause opno PgNode.pgconst
          (PgNode.pgvar varno lvl attno vty))) rte.relid rte.aliasname =
      get_rel_clauses tc rte.relid rte.aliasname ++
        [makePredicateClause opno PgNode.pgconst
          (PgNode.pgvar varno lvl attno vty)] ∧
    pr.2 = get_rel_clauses tc rte.relid rte.aliasname ++
        [makePredicateClause opno PgNode.pgconst
          (PgNode.pgvar varno lvl attno vty)] := by
  have hkc : ¬(rte.rtekind = RTEKind.cte) := by rw [hkind]; intro h; cases h
  have hscan : icwPartialScan env rts args = .found rte.relid rte.aliasname := by
    rcases hargs with rfl | rfl
    · simp only [icwPartialScan]
      rw [hrte, if_neg hkc, if_pos hname]
    · simp only [icwPartialScan]
      rw [hrte, if_neg hkc, if_pos hname]
  have hwalk : index_candidates_walker env (.opExpr opno args) rts (ctx, tc) =
      (ctx, addPredToTC tc rte.relid rte.aliasname
        (makePredicateClause opno PgNode.pgconst
          (PgNode.pgvar varno lvl attno vty))) := by
    rcases hargs with rfl | rfl
    · simp only [index_candidates_walker]
      rw [if_pos hop, hscan]
      rfl
    · simp only [index_candidates_walker]
      rw [if_pos hop, hscan]
      rfl
  refine ⟨hwalk, get_rel_clauses_addPred tc rte.relid rte.aliasname _, ?_⟩
  have := create_virtual_indexes_predicate hpr
  rw [this, hprkey.1, hprkey.2, get_rel_clauses_addPred]

/-- The fragment recorded for `is_deleted = const` (column 3 of
relation 100 is in `envW`'s partial-clause column list). -/
def fragW : PredClause := makePredicateClause 96 .pgconst (.pgvar 1 0 3 16)

/-- The accumulator after recording `fragW` under relation 100 / "t". -/
def tcW : List RelClause := addPredToTC [] rteT.relid rteT.aliasname fragW

/-- The virtual index created for `candT1` under `tcW`. -/
def prW : IndexCandidate × List PredClause :=
  ({ candT1 with idxoid := 90000 }, [fragW])

theorem C8_witness :
    96 ∈ envW.opnos ∧
    envW.attname rteT.relid 3 ∈ envW.partClauseCols ∧
    prW ∈ create_virtual_indexes envW tcW [candT1] ∧
    (index_candidates_walker envW
        (.opExpr 96 [.pgvar 1 0 3 16, .pgconst]) [[rteT]] ([], []) =
        ([], tcW) ∧
     get_rel_clauses tcW rteT.relid rteT.aliasname =
        get_rel_clauses [] rteT.relid rteT.aliasname ++ [fragW] ∧
     prW.2 = get_rel_clauses [] rteT.relid rteT.aliasname ++ [fragW]) := by
  have hpr : prW ∈ create_virtual_indexes envW tcW [candT1] := by
    rw [show create_virtual_indexes envW tcW [candT1] = [prW] from rfl]
    exact List.mem_singleton.mpr rfl
  refine ⟨by decide, by decide, hpr, ?_⟩
  exact C8_partial_clause_fragment envW [[rteT]] [] [] 96 1 0 16 3 rteT
    [.pgvar 1 0 3 16, .pgconst] [candT1] prW (by decide) (Or.inl rfl) rfl rfl
    (by decide) hpr ⟨rfl, rfl⟩

/-- C9: a reentrant invocation (recursion-guard counter positive at
entry, outside bootstrap mode) is a silent no-op:
`SuppressRecursion++ > 0` short-circuits to `DoneCleanly`
(`idx_adviser.c:338-342`), which undoes the increment and returns a
NULL plan — no candidates generated, no hypothetical index installed,
no recommendation stored, no error raised, and the guard back at its
entry value. -/
theorem C9_recursion_guard_noop (A : AdviserEnv) (query : PgQuery)
    (doingExplain : Bool) (guard : Int) (hguard : 0 < guard)
    (hboot : A.bootstrap = false) :
    index_adviser A query doingExplain guard =
      { plan := false, guard := guard, scanned := false, generated := [],
        installed := [], stored := [], erred := false } := by
  unfold index_adviser
  rw [hboot]
  simp [hguard]

/-- A per-invocation environment for the witness. -/
def advW : AdviserEnv :=
  { env := envW, bootstrap := false, spiOk := true
    actualStartupCost := 0, actualTotalCost := 100
    newStartupCost := 0, newTotalCost := 50
    planIndexOids := [90000], pagesOf := fun _ => 1, advTableOk := true }

/-- An empty query. -/
def qEmpty : PgQuery := .mk [] [] none [] [] []

theorem C9_witness :
    (0 : Int) < 1 ∧ advW.bootstrap = false ∧
    index_adviser advW qEmpty false 1 =
      { plan := false, guard := 1, scanned := false, generated := [],
        installed := [], stored := [], erred := false } :=
  ⟨by norm_num, rfl, C9_recursion_guard_noop advW qEmpty false 1
    (by norm_num) rfl⟩

/-- Replace the group, sort and target clauses of a query. -/
def PgQuery.withClauses : PgQuery → List Nat → List Nat → List PgNode → PgQuery
  | .mk rtable ctes quals _ _ _, g, s, t => .mk rtable ctes quals g s t

/-- C10: `scan_query` consults GROUP BY only when the WHERE scan
produced no candidate, ORDER BY only when GROUP BY produced none, and
the target list only when all of the above produced none
(`idx_adviser.c:1928-1951`).  Consequently, whenever the WHERE scan
yields at least one candidate, the query's group, sort and target
clauses have no influence at all on the result: replacing them by
any other clauses leaves the output pool and accumulator unchanged. -/
theorem C10_clause_priority (env : Env) (rtable : List RTEntry)
    (ctes : List PgQuery) (quals : Option PgNode)
    (g s g2 s2 : List Nat) (t t2 : List PgNode)
    (rts : List (List RTEntry)) (tc : List RelClause)
    (hw : (scanQuals env quals (rtable :: rts)
        (scanRtableList env rtable (rtable :: rts)
          (scanCteList env ctes (rtable :: rts) [] tc).1
          (scanCteList env ctes (rtable :: rts) [] tc).2).2).1 ≠ []) :
    scan_query env (.mk rtable ctes quals g s t) rts tc =
      scan_query env (.mk rtable ctes quals g2 s2 t2) rts tc := by
  have hie : (scanQuals env quals (rtable :: rts)
      (scanRtableList env rtable (rtable :: rts)
        (scanCteList env ctes (rtable :: rts) [] tc).1
        (scanCteList env ctes (rtable :: rts) [] tc).2).2).1.isEmpty = false := by
    rcases hq : (scanQuals env quals (rtable :: rts)
        (scanRtableList env rtable (rtable :: rts)
          (scanCteList env ctes (rtable :: rts) [] tc).1
          (scanCteList env ctes (rtable :: rts) [] tc).2).2).1 with _ | ⟨x, xs⟩
    · exact absurd hq hw
    · rfl
  simp only [scan_query]
  simp [hie]

/-- The comparison `a = const` used as a WHERE clause. -/
def wOp : PgNode := .opExpr 96 [.pgvar 1 0 1 23, .pgconst]

theorem C10_witness :
    (scanQuals envW (some wOp) [[rteT]]
        (scanRtableList envW [rteT] [[rteT]]
          (scanCteList envW [] [[rteT]] [] []).1
          (scanCteList envW [] [[rteT]] [] []).2).2).1 ≠ [] ∧
    scan_query envW (.mk [rteT] [] (some wOp) [2] [] [.pgvar 1 0 2 23]) [] [] =
      scan_query envW (.mk [rteT] [] (some wOp) [] [1] []) [] [] := by
  have hw : (scanQuals envW (some wOp) [[rteT]]
      (scanRtableList envW [rteT] [[rteT]]
        (scanCteList envW [] [[rteT]] [] []).1
        (scanCteList envW [] [[rteT]] [] []).2).2).1 ≠ [] := by
    simp [scanQuals, scanRtableList, scanCteList, scanOptQuery, scanOptNode,
      wOp, scan_generic_node, index_candidates_walker, icwScanMergeList,
      icwPartialScan, rteT, envW, mkVarCand, defaultRTE, RTEntry.rtekind,
      RTEntry.relid, RTEntry.aliasname, RTEntry.inh, merge_candidates]
  exact ⟨hw, C10_clause_priority envW [rteT] [] (some wOp) [2] [] [] [1]
    [.pgvar 1 0 2 23] [] [] [] hw⟩
